import Mathlib

/-!
Verification development for the kagome-cxx Japanese morphological analyzer.

The definitions below are a shallow embedding of the C++ sources:
byte strings become `List Nat` (each element one byte), machine integers
become `Int`/`Nat` with explicit wrapping where the C++ code stores into a
fixed-width integer, pointers into the caller's buffer become byte offsets,
and heap allocations owned by the library become `Option` fields.  ICU
primitives (`U8_NEXT`, `u_hasBinaryProperty(UCHAR_IDEOGRAPHIC)`,
`uscript_getScript`) are modelled by an executable UTF-8 decoder and by
abstract predicate parameters standing for ICU's Unicode data tables.
-/

set_option maxHeartbeats 1000000

namespace Kagome

/-- Test for a UTF-8 trail byte, mirroring ICU's `U8_IS_TRAIL` (`(b & 0xC0) == 0x80`). -/
def isTrail (b : Nat) : Bool := 0x80 ≤ b && b ≤ 0xBF

/-- Model of ICU's `U8_NEXT` on the remaining byte list.  Returns `none` when the
list is empty (the C++ loops never call `U8_NEXT` there), otherwise
`some (ocp, n)` where `ocp = some cp` for a well-formed sequence of `n` bytes
decoding to code point `cp`, and `ocp = none` for an ill-formed sequence whose
maximal subpart spans `n` bytes (the negative-sentinel case of `U8_NEXT`). -/
def u8Next : List Nat → Option (Option Nat × Nat)
  | [] => none
  | b0 :: t =>
    if b0 < 0x80 then some (some b0, 1)
    else if b0 < 0xC2 then some (none, 1)
    else if b0 < 0xE0 then
      match t with
      | b1 :: _ =>
        if isTrail b1 then some (some ((b0 - 0xC0) * 64 + (b1 - 0x80)), 2)
        else some (none, 1)
      | [] => some (none, 1)
    else if b0 < 0xF0 then
      match t with
      | b1 :: t1 =>
        if (if b0 = 0xE0 then decide (0xA0 ≤ b1 ∧ b1 ≤ 0xBF)
            else if b0 = 0xED then decide (0x80 ≤ b1 ∧ b1 ≤ 0x9F)
            else isTrail b1) then
          match t1 with
          | b2 :: _ =>
            if isTrail b2 then
              some (some ((b0 - 0xE0) * 4096 + (b1 - 0x80) * 64 + (b2 - 0x80)), 3)
            else some (none, 2)
          | [] => some (none, 2)
        else some (none, 1)
      | [] => some (none, 1)
    else if b0 < 0xF5 then
      match t with
      | b1 :: t1 =>
        if (if b0 = 0xF0 then decide (0x90 ≤ b1 ∧ b1 ≤ 0xBF)
            else if b0 = 0xF4 then decide (0x80 ≤ b1 ∧ b1 ≤ 0x8F)
            else isTrail b1) then
          match t1 with
          | b2 :: t2 =>
            if isTrail b2 then
              match t2 with
              | b3 :: _ =>
                if isTrail b3 then
                  some (some ((b0 - 0xF0) * 262144 + (b1 - 0x80) * 4096 +
                              (b2 - 0x80) * 64 + (b3 - 0x80)), 4)
                else some (none, 3)
              | [] => some (none, 3)
            else some (none, 2)
          | [] => some (none, 2)
        else some (none, 1)
      | [] => some (none, 1)
    else some (none, 1)

theorem u8Next_nil : u8Next [] = none := rfl

theorem u8Next_cons_isSome (b0 : Nat) (t : List Nat) :
    (u8Next (b0 :: t)).isSome = true := by
  simp only [u8Next]
  repeat' split
  all_goals rfl

theorem u8Next_eq_none_iff {l : List Nat} : u8Next l = none ↔ l = [] := by
  cases l with
  | nil => simp [u8Next]
  | cons b0 t =>
    constructor
    · intro h
      have hs := u8Next_cons_isSome b0 t
      rw [h] at hs
      exact absurd hs (by simp)
    · intro h
      exact absurd h (by simp)

theorem u8Next_pos {l : List Nat} {ocp : Option Nat} {n : Nat}
    (h : u8Next l = some (ocp, n)) : 1 ≤ n ∧ n ≤ 4 := by
  cases l with
  | nil => exact absurd h (by simp [u8Next])
  | cons b0 t =>
    simp only [u8Next] at h
    repeat' split at h
    all_goals (injection h with h; injection h with h1 h2; omega)

/-- Fuel-indexed version of the scanning loop of `count_utf8_chars`
(src/unnamed/part_007): repeatedly `U8_NEXT` and count the code points that
decoded successfully (`codepoint >= 0`).  The fuel is an upper bound on the
number of iterations; `u8Next` always consumes at least one byte, so
`l.length` iterations always suffice. -/
def countUtf8CharsAux : Nat → List Nat → Nat
  | 0, _ => 0
  | fuel + 1, l =>
    match u8Next l with
    | none => 0
    | some (ocp, n) => (if ocp.isSome then 1 else 0) + countUtf8CharsAux fuel (l.drop n)

/-- Model of `count_utf8_chars` (src/unnamed/part_007 lines 23-38). -/
def countUtf8Chars (l : List Nat) : Nat := countUtf8CharsAux l.length l

theorem countUtf8CharsAux_congr :
    ∀ {f : Nat} {g : Nat} {l : List Nat}, l.length ≤ f → l.length ≤ g →
      countUtf8CharsAux f l = countUtf8CharsAux g l := by
  intro f
  induction f with
  | zero =>
    intro g l hf hg
    have hl : l = [] := List.length_eq_zero.mp (Nat.le_zero.mp hf)
    subst hl
    cases g <;> simp [countUtf8CharsAux, u8Next]
  | succ f ih =>
    intro g l hf hg
    cases g with
    | zero =>
      have hl : l = [] := List.length_eq_zero.mp (Nat.le_zero.mp hg)
      subst hl
      simp [countUtf8CharsAux, u8Next]
    | succ g =>
      cases hu : u8Next l with
      | none => simp [countUtf8CharsAux, hu]
      | some p =>
        obtain ⟨ocp, n⟩ := p
        have hp := u8Next_pos hu
        have hl : l ≠ [] := by
          intro he; subst he; exact absurd hu (by simp [u8Next])
        have hl1 : 1 ≤ l.length := List.length_pos.mpr hl
        have hlen : (l.drop n).length = l.length - n := List.length_drop n l
        simp only [countUtf8CharsAux, hu]
        congr 1
        apply ih <;> omega

theorem countUtf8Chars_step {l : List Nat} {ocp : Option Nat} {n : Nat}
    (h : u8Next l = some (ocp, n)) :
    countUtf8Chars l = (if ocp.isSome then 1 else 0) + countUtf8Chars (l.drop n) := by
  have hp := u8Next_pos h
  have hl : l ≠ [] := by
    intro he; subst he; exact absurd h (by simp [u8Next])
  have hl1 : 1 ≤ l.length := List.length_pos.mpr hl
  have hlen : (l.drop n).length = l.length - n := List.length_drop n l
  unfold countUtf8Chars
  obtain ⟨m, hm⟩ : ∃ m, l.length = m + 1 := ⟨l.length - 1, by omega⟩
  rw [hm]
  simp only [countUtf8CharsAux, h]
  congr 1
  exact countUtf8CharsAux_congr (by omega) (le_refl _)

theorem countUtf8Chars_nil : countUtf8Chars [] = 0 := rfl

/-- Fuel-indexed decode loop shared by `contains_japanese_chars` and
`kagome_detect_language` (src/unnamed/part_003): the list of `U8_NEXT`
results seen by the loop (`none` for an ill-formed sequence). -/
def decodeAllAux : Nat → List Nat → List (Option Nat)
  | 0, _ => []
  | fuel + 1, l =>
    match u8Next l with
    | none => []
    | some (ocp, n) => ocp :: decodeAllAux fuel (l.drop n)

/-- Sequence of decoded code points of a byte list, as traversed by the
scanning loops of the C API (one entry per `U8_NEXT` call). -/
def decodeAll (l : List Nat) : List (Option Nat) := decodeAllAux l.length l

theorem decodeAllAux_congr :
    ∀ {f : Nat} {g : Nat} {l : List Nat}, l.length ≤ f → l.length ≤ g →
      decodeAllAux f l = decodeAllAux g l := by
  intro f
  induction f with
  | zero =>
    intro g l hf hg
    have hl : l = [] := List.length_eq_zero.mp (Nat.le_zero.mp hf)
    subst hl
    cases g <;> simp [decodeAllAux, u8Next]
  | succ f ih =>
    intro g l hf hg
    cases g with
    | zero =>
      have hl : l = [] := List.length_eq_zero.mp (Nat.le_zero.mp hg)
      subst hl
      simp [decodeAllAux, u8Next]
    | succ g =>
      cases hu : u8Next l with
      | none => simp [decodeAllAux, hu]
      | some p =>
        obtain ⟨ocp, n⟩ := p
        have hp := u8Next_pos hu
        have hl : l ≠ [] := by
          intro he; subst he; exact absurd hu (by simp [u8Next])
        have hl1 : 1 ≤ l.length := List.length_pos.mpr hl
        have hlen : (l.drop n).length = l.length - n := List.length_drop n l
        simp only [decodeAllAux, hu]
        congr 1
        apply ih <;> omega

theorem decodeAll_step {l : List Nat} {ocp : Option Nat} {n : Nat}
    (h : u8Next l = some (ocp, n)) :
    decodeAll l = ocp :: decodeAll (l.drop n) := by
  have hp := u8Next_pos h
  have hl : l ≠ [] := by
    intro he; subst he; exact absurd h (by simp [u8Next])
  have hl1 : 1 ≤ l.length := List.length_pos.mpr hl
  have hlen : (l.drop n).length = l.length - n := List.length_drop n l
  unfold decodeAll
  obtain ⟨m, hm⟩ : ∃ m, l.length = m + 1 := ⟨l.length - 1, by omega⟩
  rw [hm]
  simp only [decodeAllAux, h]
  congr 1
  exact decodeAllAux_congr (by omega) (le_refl _)

theorem decodeAll_nil : decodeAll [] = [] := rfl

/-! UTF-8 chunk structure.  A byte list is valid UTF-8 when it decomposes
into single-character chunks, each of which `u8Next` decodes to a code
point consuming exactly its bytes, independently of what follows. -/

/-- One UTF-8 character: its encoded bytes and its code point. -/
structure UcharC where
  bytes : List Nat
  cp : Nat
deriving DecidableEq

/-- A well-formed character: `u8Next` decodes `bytes` to `cp`, consuming
exactly `bytes.length` bytes, whatever follows. -/
def UcharOK (u : UcharC) : Prop :=
  ∀ r : List Nat, u8Next (u.bytes ++ r) = some (some u.cp, u.bytes.length)

/-- Byte serialization of a character sequence. -/
def chunksBytes (cs : List UcharC) : List Nat := (cs.map UcharC.bytes).flatten

/-- Validity of a byte list as UTF-8: it is the serialization of some
well-formed character sequence. -/
def Utf8ValidP (l : List Nat) : Prop :=
  ∃ cs : List UcharC, (∀ u ∈ cs, UcharOK u) ∧ l = chunksBytes cs

theorem UcharOK.ne_nil {u : UcharC} (h : UcharOK u) : u.bytes ≠ [] := by
  intro he
  have h0 := h []
  rw [he] at h0
  exact absurd h0 (by simp [u8Next])

theorem UcharOK.len_pos {u : UcharC} (h : UcharOK u) : 1 ≤ u.bytes.length := by
  have := h.ne_nil
  exact List.length_pos.mpr this

theorem chunksBytes_nil : chunksBytes [] = [] := rfl

theorem chunksBytes_cons (u : UcharC) (cs : List UcharC) :
    chunksBytes (u :: cs) = u.bytes ++ chunksBytes cs := by
  simp [chunksBytes]

theorem chunksBytes_append (cs ds : List UcharC) :
    chunksBytes (cs ++ ds) = chunksBytes cs ++ chunksBytes ds := by
  simp [chunksBytes]

theorem countUtf8Chars_chunks_aux :
    ∀ (cs : List UcharC), (∀ u ∈ cs, UcharOK u) → ∀ r : List Nat,
      countUtf8Chars (chunksBytes cs ++ r) = cs.length + countUtf8Chars r := by
  intro cs
  induction cs with
  | nil => intro _ r; simp [chunksBytes]
  | cons u rest ih =>
    intro hok r
    have hu : UcharOK u := hok u (by simp)
    rw [chunksBytes_cons, List.append_assoc]
    have hstep := countUtf8Chars_step (hu (chunksBytes rest ++ r))
    rw [hstep]
    have hdrop : (u.bytes ++ (chunksBytes rest ++ r)).drop u.bytes.length
        = chunksBytes rest ++ r := by
      rw [List.drop_left]
    rw [hdrop]
    simp only [Option.isSome_some, if_pos]
    rw [ih (fun v hv => hok v (by simp [hv])) r]
    simp [List.length_cons]
    omega

theorem countUtf8Chars_chunks {cs : List UcharC} (hok : ∀ u ∈ cs, UcharOK u) :
    countUtf8Chars (chunksBytes cs) = cs.length := by
  have := countUtf8Chars_chunks_aux cs hok []
  simpa [countUtf8Chars_nil] using this

/-! Lattice data model (include/kagome/tokenizer/lattice/node.hpp and
lattice.hpp, src/unnamed/part_007).  Node pointers become `(bucket, index)`
pairs into the bucket array; byte strings become `List Nat`; the dictionary
is abstracted by the functions the lattice actually calls on it, with ICU's
Ideographic table as a predicate parameter. -/

/-- Constant `MAXIMUM_COST = std::numeric_limits<int32_t>::max()`. -/
def MAXIMUM_COST : Int := 2147483647

/-- Two's-complement wrap into the signed 32-bit range, modelling a
`static_cast<std::int32_t>` store of a 64-bit intermediate. -/
def wrap32 (x : Int) : Int := (x + 2147483648) % 4294967296 - 2147483648

/-- Lattice processing modes (`LatticeMode`). -/
inductive LatticeMode
  | Normal
  | Search
  | Extended
deriving DecidableEq, Inhabited

/-- Node classification (`NodeClass`). -/
inductive NodeClass
  | Dummy
  | Known
  | Unknown
  | User
deriving DecidableEq, Inhabited

/-- Morph triple (`kagome::dict::Morph`). -/
structure Morph where
  leftId : Int
  rightId : Int
  weight : Int
deriving DecidableEq, Inhabited

/-- Lattice node (`kagome::tokenizer::lattice::Node`).  `prev` is the best
predecessor pointer, modelled as a `(bucket, index)` pair into the bucket
array.  `position` (byte offset) and `start` (character position) are kept
as `Nat`: every call site passes non-negative values. -/
structure BNode where
  id : Int
  position : Nat
  start : Nat
  nclass : NodeClass
  cost : Int
  leftId : Int
  rightId : Int
  weight : Int
  surface : List Nat
  prev : Option (Nat × Nat)
deriving DecidableEq, Inhabited

/-- The dictionary operations consulted by `Lattice` (`kagome::dict::Dict`),
abstracted: `conn` is the bounds-checked `ConnectionTable::at`, `charCategory`
the bounds-checked `Dict::character_category`, `sysSearch` the hits `(id,
byte_length)` delivered in order by `index.common_prefix_search_callback` on
a given remaining input, and `ideographic` ICU's
`u_hasBinaryProperty(UCHAR_IDEOGRAPHIC)` table. -/
structure DictCore where
  morphs : List Morph
  conn : Int → Int → Int
  charCategory : Nat → Nat
  groupList : List Bool
  unkIndexSize : Nat
  unkIndex : Nat → Int
  unkDupSize : Nat
  unkDup : Nat → Int
  unkMorphs : List Morph
  sysSearch : List Nat → List (Int × Nat)
  ideographic : Nat → Bool

/-- Full dictionary record: adds the per-category `invoke_list`, which the
lattice builder never consults (claim C5). -/
structure DictM extends DictCore where
  invokeList : List Bool

/-- User dictionary abstraction: the hits `(id, byte_length)` delivered by
`user_dict->index.common_prefix_search_callback` on a remaining input. -/
structure UserDictM where
  search : List Nat → List (Int × Nat)

/-- Model of `Dict::should_group`: `idx < group_list.size() ? group_list[idx] : false`. -/
def shouldGroup (d : DictCore) (c : Nat) : Bool := d.groupList.getD c false

/-- Substring `input.substr(a, len)` as a byte-list slice. -/
def slice (l : List Nat) (a len : Nat) : List Nat := (l.drop a).take len

/-- Model of `Lattice::add_node` (src/unnamed/part_007 lines 213-259). -/
def addNode (d : DictCore) (buckets : List (List BNode)) (pos : Nat) (id : Int)
    (position : Nat) (start : Nat) (nclass : NodeClass) (surface : List Nat) :
    List (List BNode) :=
  let morph : Morph :=
    match nclass with
    | NodeClass.Known =>
      if 0 ≤ id ∧ id.toNat < d.morphs.length then d.morphs.getD id.toNat default else default
    | NodeClass.Unknown =>
      if 0 ≤ id ∧ id.toNat < d.unkMorphs.length then d.unkMorphs.getD id.toNat default else default
    | _ => default
  let node : BNode :=
    { id := id, position := position, start := start, nclass := nclass, cost := 0,
      leftId := morph.leftId, rightId := morph.rightId, weight := morph.weight,
      surface := surface, prev := none }
  let targetPos : Nat := if surface = [] then pos else pos + countUtf8Chars surface
  if targetPos < buckets.length then
    buckets.set targetPos (buckets.getD targetPos [] ++ [node])
  else buckets

/-- Fold adding one lattice node per search hit, mirroring the
`common_prefix_search_callback` lambdas in `Lattice::build`. -/
def addHits (d : DictCore) (buckets : List (List BNode)) (input : List Nat)
    (charPos csb : Nat) (ncl : NodeClass) (hits : List (Int × Nat)) :
    List (List BNode) :=
  hits.foldl (fun bks h => addNode d bks charPos h.1 csb charPos ncl (slice input csb h.2)) buckets

/-- The `longest_match_bytes` / `longest_match_chars` tracking of
`Lattice::build`: fold `if (length > longest_match_bytes)` over the hits. -/
def longestHit (input : List Nat) (csb : Nat) (hits : List (Int × Nat)) : Nat × Nat :=
  hits.foldl
    (fun acc h => if h.2 > acc.1 then (h.2, countUtf8Chars (slice input csb h.2)) else acc)
    (0, 0)

/-- The same-category grouping loop of `Lattice::build` (lines 151-167):
starting after the first character, extend while the next code point decodes
and has the same category, up to `MAXIMUM_UNKNOWN_WORD_LENGTH = 1024`
characters.  Returns `(end_byte, unknown_word_len, trunc_end)` where
`trunc_end` is the byte offset before the last accepted character (the
`U8_BACK_1` boundary used for the truncated candidate). -/
def groupRun (d : DictCore) (input : List Nat) (cat : Nat) :
    Nat → Nat → Nat → Nat → Nat → Nat × Nat × Nat
  | 0, bytePos, endByte, uwl, truncEnd => (endByte, uwl, truncEnd)
  | fuel + 1, bytePos, endByte, uwl, truncEnd =>
    if bytePos < input.length ∧ uwl < 1024 then
      match u8Next (input.drop bytePos) with
      | none => (endByte, uwl, truncEnd)
      | some (ocp, n) =>
        match ocp with
        | none => (endByte, uwl, truncEnd)
        | some cp =>
          if d.charCategory cp = cat then
            groupRun d input cat fuel (bytePos + n) (bytePos + n) (uwl + 1) endByte
          else (endByte, uwl, truncEnd)
    else (endByte, uwl, truncEnd)

/-- The unknown-word insertion block of `Lattice::build` (lines 169-205):
either the per-category duplicate range of `unk_dict` (truncated candidate
first when the run is longer than one character, then the full candidate),
or the catch-all id `-2` node when the category has no `unk_dict` entry. -/
def addUnknownNodes (d : DictCore) (buckets : List (List BNode)) (input : List Nat)
    (charPos csb endByte truncEnd uwl cat : Nat) : List (List BNode) :=
  if cat < d.unkIndexSize then
    let baseId := d.unkIndex cat
    let dupCount : Int := if cat < d.unkDupSize then d.unkDup cat + 1 else 1
    (List.range dupCount.toNat).foldl
      (fun bks (i : Nat) =>
        let bks1 :=
          if uwl > 1 then
            addNode d bks charPos (baseId + (i : Int)) csb charPos NodeClass.Unknown
              (slice input csb (truncEnd - csb))
          else bks
        addNode d bks1 charPos (baseId + (i : Int)) csb charPos NodeClass.Unknown
          (slice input csb (endByte - csb)))
      buckets
  else
    addNode d buckets charPos (-2) csb charPos NodeClass.Unknown
      (slice input csb (endByte - csb))

/-- State of the character-position scan of `Lattice::build`. -/
structure BuildSt where
  buckets : List (List BNode)
  bytePos : Nat
  charPos : Nat
deriving Inhabited

/-- One iteration of the `while (byte_pos < input.length())` loop of
`Lattice::build` (lines 68-210): decode the current character, try the user
dictionary, then the system dictionary, and fall through to unknown-word
generation only when neither produced a hit. -/
def buildStep (d : DictCore) (u : Option UserDictM) (input : List Nat) (st : BuildSt) :
    BuildSt :=
  let csb := st.bytePos
  match u8Next (input.drop csb) with
  | none => st
  | some (ocp, n) =>
    let bytePos1 := csb + n
    match ocp with
    | none => { st with bytePos := bytePos1 }
    | some cp =>
      let userHits := match u with
        | some ud => ud.search (input.drop csb)
        | none => []
      if userHits ≠ [] then
        let bks := addHits d st.buckets input st.charPos csb NodeClass.User userHits
        let lm := longestHit input csb userHits
        { buckets := bks, bytePos := csb + lm.1, charPos := st.charPos + lm.2 }
      else
        let sysHits := d.sysSearch (input.drop csb)
        if sysHits ≠ [] then
          let bks := addHits d st.buckets input st.charPos csb NodeClass.Known sysHits
          let lm := longestHit input csb sysHits
          { buckets := bks, bytePos := csb + lm.1, charPos := st.charPos + lm.2 }
        else
          let cat := d.charCategory cp
          let g :=
            if shouldGroup d cat then
              groupRun d input cat input.length bytePos1 bytePos1 1 csb
            else (bytePos1, 1, csb)
          let bks := addUnknownNodes d st.buckets input st.charPos csb g.1 g.2.2 g.2.1 cat
          { buckets := bks, bytePos := g.1, charPos := st.charPos + g.2.1 }

/-- Fuel-indexed scan loop of `Lattice::build`.  Every completed iteration
advances `bytePos` when the dictionary callbacks report positive hit
lengths; `input.length + 1` units of fuel then always suffice. -/
def buildLoop (d : DictCore) (u : Option UserDictM) (input : List Nat) :
    Nat → BuildSt → BuildSt
  | 0, st => st
  | fuel + 1, st =>
    if st.bytePos < input.length then
      buildLoop d u input fuel (buildStep d u input st)
    else st

/-- Model of `Lattice::build` (src/unnamed/part_007 lines 46-211): size the
bucket array to `char_count + 2`, insert BOS and EOS, then scan. -/
def build (d : DictCore) (u : Option UserDictM) (input : List Nat) : List (List BNode) :=
  let cc := countUtf8Chars input
  let empty : List (List BNode) := List.replicate (cc + 2) []
  let b1 := addNode d empty 0 (-1) 0 0 NodeClass.Dummy []
  let b2 := addNode d b1 (cc + 1) (-1) input.length cc NodeClass.Dummy []
  (buildLoop d u input (input.length + 1) { buckets := b2, bytePos := 0, charPos := 0 }).buckets

/-- Node access through a `(bucket, index)` pointer. -/
def getNode (bks : List (List BNode)) (i j : Nat) : BNode :=
  (bks.getD i []).getD j default

/-- In-place node update through a `(bucket, index)` pointer. -/
def setNode (bks : List (List BNode)) (i j : Nat) (nd : BNode) : List (List BNode) :=
  bks.set i ((bks.getD i []).set j nd)

/-- Helper of `Lattice::is_kanji_only` (lines 530-558): scan the remaining
bytes, returning false on an ill-formed sequence or a non-Ideographic code
point, and finally whether any character was seen. -/
def isKanjiOnlyAux (ideo : Nat → Bool) : Nat → List Nat → Bool → Bool
  | 0, _, found => found
  | fuel + 1, l, found =>
    match u8Next l with
    | none => found
    | some (ocp, n) =>
      match ocp with
      | none => false
      | some cp =>
        if ideo cp then isKanjiOnlyAux ideo fuel (l.drop n) true else false

/-- Model of `Lattice::is_kanji_only`: every code point of a non-empty,
well-formed string satisfies ICU's Ideographic property. -/
def isKanjiOnly (ideo : Nat → Bool) (s : List Nat) : Bool :=
  if s = [] then false else isKanjiOnlyAux ideo s.length s false

/-- Model of `Lattice::additional_cost` (lines 510-528), the search-mode
penalty of a node surface (`SEARCH_MODE_KANJI_LENGTH = 2`,
`SEARCH_MODE_KANJI_PENALTY = 3000`, `SEARCH_MODE_OTHER_LENGTH = 7`,
`SEARCH_MODE_OTHER_PENALTY = 1700`). -/
def additionalCost (ideo : Nat → Bool) (s : List Nat) : Int :=
  if s = [] then 0
  else
    let n : Int := countUtf8Chars s
    if 2 < n ∧ isKanjiOnly ideo s then (n - 2) * 3000
    else if 7 < n then (n - 7) * 1700
    else 0

/-- The 64-bit intermediate `total_cost` computed by `Lattice::forward` for a
predecessor `p` and target `t`: connection cost (zero when either node is
User-class) plus the target weight plus the accumulated predecessor cost,
plus the search-mode penalty of the predecessor when the mode is not
Normal. -/
def stepTotal (d : DictCore) (mode : LatticeMode) (p t : BNode) : Int :=
  let connectionCost : Int :=
    if p.nclass ≠ NodeClass.User ∧ t.nclass ≠ NodeClass.User then d.conn p.rightId t.leftId
    else 0
  let base := connectionCost + t.weight + p.cost
  if mode ≠ LatticeMode.Normal then base + additionalCost d.ideographic p.surface else base

/-- One iteration of the predecessor loop of `Lattice::forward` (lines
280-311): clamp the 64-bit total at `MAXIMUM_COST`, store through a 32-bit
cast, and update cost and prev when `k == 0` or the candidate improves. -/
def forwardK (d : DictCore) (mode : LatticeMode) (bks : List (List BNode)) (i j k : Nat) :
    List (List BNode) :=
  let t := getNode bks i j
  let p := getNode bks t.start k
  let v := wrap32 (min (stepTotal d mode p t) MAXIMUM_COST)
  if k = 0 ∨ v < t.cost then
    setNode bks i j { t with cost := v, prev := some (t.start, k) }
  else bks

/-- Processing of one target node by `Lattice::forward` (lines 266-311):
a node whose start bucket is out of range or empty is marked dead with
`MAXIMUM_COST`; otherwise fold the predecessor loop. -/
def forwardNode (d : DictCore) (mode : LatticeMode) (bks : List (List BNode)) (i j : Nat) :
    List (List BNode) :=
  let t := getNode bks i j
  if bks.length ≤ t.start then setNode bks i j { t with cost := MAXIMUM_COST }
  else if (bks.getD t.start []).length = 0 then setNode bks i j { t with cost := MAXIMUM_COST }
  else
    (List.range' 0 (bks.getD t.start []).length).foldl (fun b k => forwardK d mode b i j k) bks

/-- One bucket of the forward pass. -/
def forwardBucket (d : DictCore) (mode : LatticeMode) (bks : List (List BNode)) (i : Nat) :
    List (List BNode) :=
  (List.range' 0 (bks.getD i []).length).foldl (fun b j => forwardNode d mode b i j) bks

/-- Model of `Lattice::forward` (lines 261-314): process buckets 1 upwards in
order. -/
def forward (d : DictCore) (mode : LatticeMode) (bks : List (List BNode)) :
    List (List BNode) :=
  (List.range' 1 (bks.length - 1)).foldl (fun b i => forwardBucket d mode b i) bks

/-- The Extended-mode unknown split of `Lattice::backward` (lines 332-364):
one fresh Dummy node per code point of the surface, positions preserved;
remaining fields are pool defaults (zero).  Nodes are produced in forward
(surface) order, matching the `char_nodes` vector. -/
def splitUnknownAux (nd : BNode) : Nat → Nat → List BNode
  | 0, _ => []
  | fuel + 1, off =>
    if off < nd.surface.length then
      match u8Next (nd.surface.drop off) with
      | none => []
      | some (ocp, n) =>
        match ocp with
        | none => splitUnknownAux nd fuel (off + n)
        | some _ =>
          ({ id := nd.id, position := nd.position + off, start := nd.position + off,
             nclass := NodeClass.Dummy, cost := 0, leftId := 0, rightId := 0, weight := 0,
             surface := slice nd.surface off n, prev := none } : BNode)
            :: splitUnknownAux nd fuel (off + n)
    else []

/-- Character pieces of an Unknown node in Extended mode. -/
def splitUnknown (nd : BNode) : List BNode := splitUnknownAux nd nd.surface.length 0

/-- Fuel-indexed trace of the `while (current != nullptr)` loop of
`Lattice::backward`: follow `prev` pointers from EOS, appending each node
(or, in Extended mode, the character pieces of an Unknown node in forward
order) to the collected list. -/
def backwardAux (mode : LatticeMode) (bks : List (List BNode)) :
    Nat → Option (Nat × Nat) → List BNode → List BNode
  | 0, _, acc => acc
  | fuel + 1, cur, acc =>
    match cur with
    | none => acc
    | some (b, j) =>
      let nd := getNode bks b j
      let acc1 :=
        if mode ≠ LatticeMode.Extended ∨ nd.nclass ≠ NodeClass.Unknown then acc ++ [nd]
        else acc ++ splitUnknown nd
      backwardAux mode bks fuel nd.prev acc1

/-- Total node count of a bucket array, used as walk fuel: a `prev` chain
visits each node at most once in every reachable lattice. -/
def totalNodes (bks : List (List BNode)) : Nat :=
  bks.foldl (fun a l => a + l.length) 0

/-- Model of `Lattice::backward` (src/unnamed/part_007 lines 316-374):
empty output when the bucket array or the EOS bucket is empty; otherwise
trace back from `node_list_.back()[0]` and reverse the collected nodes. -/
def backward (mode : LatticeMode) (bks : List (List BNode)) : List BNode :=
  if bks.length = 0 ∨ bks.getD (bks.length - 1) [] = [] then []
  else (backwardAux mode bks (totalNodes bks + 1) (some (bks.length - 1, 0)) []).reverse

/-! C API embedding (src/unnamed/part_003, current version at lines 443-980).
The caller's `text` buffer is a byte list; a pointer `text + pos` into it is
the offset `pos`; buffers allocated by the library (`unicode`, `normalized`,
`stemmed`) are `Option` fields, `none` when unallocated or freed. -/

/-- Host word-flag constants (rspamd header values). -/
def FLAG_TEXT : Nat := 1

/-- Flag `RSPAMD_WORD_FLAG_EXCEPTION`. -/
def FLAG_EXCEPTION : Nat := 8

/-- Flag `RSPAMD_WORD_FLAG_UTF`. -/
def FLAG_UTF : Nat := 64

/-- Flag `RSPAMD_WORD_FLAG_NORMALISED`. -/
def FLAG_NORMALISED : Nat := 128

/-- Flag `RSPAMD_WORD_FLAG_STOP_WORD`. -/
def FLAG_STOP_WORD : Nat := 1024

/-- UTF-8 bytes of the POS string `記号` (symbols/punctuation). -/
def posKigou : List Nat := [0xE8, 0xA8, 0x98, 0xE5, 0x8F, 0xB7]

/-- UTF-8 bytes of the POS string `助詞` (particle). -/
def posJoshi : List Nat := [0xE5, 0x8A, 0xA9, 0xE8, 0xA9, 0x9E]

/-- UTF-8 bytes of the POS string `助動詞` (auxiliary verb). -/
def posJodoushi : List Nat := [0xE5, 0x8A, 0xA9, 0xE5, 0x8B, 0x95, 0xE8, 0xA9, 0x9E]

/-- UTF-8 bytes of the wildcard feature `*`. -/
def starBytes : List Nat := [0x2A]

/-- The data `kagome_tokenize` reads from one `kagome::tokenizer::Token`:
its surface bytes, its reported start position (`token.start()`, a signed
32-bit value), its base form and its POS component strings (as byte
lists). -/
structure TokenM where
  surface : List Nat
  start : Int
  baseForm : List Nat
  posList : List (List Nat)
deriving DecidableEq, Inhabited

/-- One host `rspamd_word_t` record.  `originalOff`/`originalLen` model the
`original.begin = text + pos` pointer and byte length; the three owned
allocations are `Option`s (`none` = null / freed). -/
structure WordM where
  originalOff : Nat
  originalLen : Nat
  unicode : Option (List Nat)
  normalized : Option (List Nat)
  stemmed : Option (List Nat)
  flags : Nat
deriving DecidableEq, Inhabited

/-- UTF-8 boundary test used by `kagome_tokenize`:
`pos == 0 || !U8_IS_TRAIL(text[pos])`. -/
def boundaryOK (text : List Nat) (pos : Nat) : Bool :=
  decide (pos = 0) || ! isTrail (text.getD pos 0)

/-- The fallback linear search of `kagome_tokenize` (lines 760-772 and
792-804): the first offset at which the surface bytes occur on a UTF-8
boundary, scanning `pos` from 0 to `len - surface.length`. -/
def findSurface (text surface : List Nat) : Option Nat :=
  if surface.length ≤ text.length then
    (List.range (text.length - surface.length + 1)).find?
      (fun pos => decide (slice text pos surface.length = surface) && boundaryOK text pos)
  else none

/-- The position-validation logic of the `valid_tokens` loop of
`kagome_tokenize` (lines 741-810): `none` means the token is dropped. -/
def validTokenPos (text : List Nat) (tok : TokenM) : Option Nat :=
  if tok.surface = [] then none
  else if text.length < tok.surface.length then none
  else if tok.start < 0 ∨ (text.length : Int) ≤ tok.start then
    findSurface text tok.surface
  else
    let ts := tok.start.toNat
    if ts < text.length ∧ ts + tok.surface.length ≤ text.length ∧
        slice text ts tok.surface.length = tok.surface ∧ boundaryOK text ts = true then
      some ts
    else findSurface text tok.surface

/-- The `valid_tokens` vector: surviving `(position, token)` pairs, in token
order. -/
def validTokens (text : List Nat) (tokens : List TokenM) : List (Nat × TokenM) :=
  tokens.filterMap (fun tok => (validTokenPos text tok).map (fun pos => (pos, tok)))

/-- Model of the helper `utf8_to_utf32`: the successfully decoded code
points of a byte list, in order. -/
def utf8ToUtf32 (l : List Nat) : List Nat := (decodeAll l).filterMap id

/-- The emission loop body of `kagome_tokenize` (lines 829-927) for one
valid `(pos, token)` pair; `none` models the defensive `continue`s that skip
the slot without emitting.  Allocation failures (`malloc`/`strdup_safe`
returning null) are not modelled: allocations always succeed. -/
def emitWord (text : List Nat) (pos : Nat) (tok : TokenM) : Option WordM :=
  if text.length ≤ pos then none
  else if text.length < pos + tok.surface.length then none
  else
    let flags0 := FLAG_TEXT ||| FLAG_UTF ||| FLAG_NORMALISED
    let normalizedSource :=
      if tok.baseForm ≠ [] ∧ tok.baseForm ≠ starBytes then tok.baseForm else tok.surface
    let mainPos := tok.posList.headD []
    let isPunct := tok.posList ≠ [] ∧ mainPos = posKigou
    let isStop := tok.posList ≠ [] ∧ mainPos ≠ posKigou ∧
      (mainPos = posJoshi ∨ mainPos = posJodoushi)
    let flags := (flags0 ||| (if isPunct then FLAG_EXCEPTION else 0)) |||
      (if isStop then FLAG_STOP_WORD else 0)
    let uni : Option (List Nat) :=
      if isPunct then none
      else if utf8ToUtf32 tok.surface ≠ [] then some (utf8ToUtf32 tok.surface) else none
    some
      { originalOff := pos, originalLen := tok.surface.length,
        unicode := uni, normalized := some normalizedSource,
        stemmed := some normalizedSource, flags := flags }

/-- The emitted word array of `kagome_tokenize` given the token sequence
produced by `g_tokenizer->tokenize` (which this embedding abstracts as an
argument). -/
def kagomeTokenizeWords (text : List Nat) (tokens : List TokenM) : List WordM :=
  (validTokens text tokens).filterMap (fun pt => emitWord text pt.1 pt.2)

/-- Model of `kagome_tokenize` (lines 728-936): `none` is the `-1` error
return for null/empty input (a null `result` or missing tokenizer is not
representable here), `some ws` the success case with the emitted words. -/
def kagomeTokenize (text : List Nat) (tokens : List TokenM) : Option (List WordM) :=
  if text = [] then none else some (kagomeTokenizeWords text tokens)

/-- Model of the per-word part of `kagome_cleanup_result` (lines 938-968):
free `unicode`, `normalized` and `stemmed` (set them to null) and leave
`original` untouched. -/
def cleanupWord (w : WordM) : WordM :=
  { w with unicode := none, normalized := none, stemmed := none }

/-- Model of `kagome_cleanup_result` over the emitted array. -/
def kagomeCleanupResult (ws : List WordM) : List WordM := ws.map cleanupWord

/-- Script test of one decode-loop entry: an ill-formed sequence
(`uscript_getScript` fails on the negative sentinel) is never counted as
Japanese.  `jscript` abstracts ICU's test for Hiragana, Katakana or Han. -/
def isJaCp (jscript : Nat → Bool) (oc : Option Nat) : Bool :=
  match oc with
  | some cp => jscript cp
  | none => false

/-- Model of the helper `contains_japanese_chars`. -/
def containsJapaneseChars (jscript : Nat → Bool) (text : List Nat) : Bool :=
  (decodeAll text).any (isJaCp jscript)

/-- Model of `kagome_detect_language` (lines 685-726) over exact rationals
in place of IEEE doubles; `text = []` covers both the null and the
`len == 0` guard. -/
def detectLanguage (jscript : Nat → Bool) (text : List Nat) : ℚ :=
  if text = [] then -1
  else if containsJapaneseChars jscript text then
    let total : Nat := (decodeAll text).length
    let ja : Nat := (decodeAll text).countP (isJaCp jscript)
    if 0 < total then
      max (0.3 : ℚ) (min (0.95 : ℚ) ((0.3 : ℚ) + ((ja : ℚ) / (total : ℚ)) * (0.65 : ℚ)))
    else -1
  else -1

/-! Generic bucket-array lemmas. -/

theorem getD_set_eq {α : Type} (l : List α) (i : Nat) (x d : α) (h : i < l.length) :
    (l.set i x).getD i d = x := by
  simp [List.getD_eq_getElem?_getD, List.getElem?_set_self h]

theorem getD_set_ne {α : Type} (l : List α) (i b : Nat) (x d : α) (h : i ≠ b) :
    (l.set i x).getD b d = l.getD b d := by
  simp [List.getD_eq_getElem?_getD, List.getElem?_set_ne h]

/-- A trivial dictionary instance, used for concrete evaluations. -/
def trivDict : DictCore where
  morphs := []
  conn := fun _ _ => 0
  charCategory := fun _ => 0
  groupList := []
  unkIndexSize := 0
  unkIndex := fun _ => 0
  unkDupSize := 0
  unkDup := fun _ => 0
  unkMorphs := []
  sysSearch := fun _ => []
  ideographic := fun _ => false

/-- Claim C10, counterexample: the claim says `add_node` appends the node at
bucket index `start + char_len(surface)`, but the code computes the index
from the first parameter `pos`, which differs from `start` at the EOS call
`add_node(char_count + 1, BOS_EOS_ID, input.length(), char_count, Dummy, "")`.
Concretely, for an empty input (`char_count = 0`) the EOS call has `pos = 1`,
`start = 0`, empty surface: the node lands in bucket `1`, while the bucket at
the claim's index `start + char_len(surface) = 0` stays empty. -/
theorem kagome_c10_counterexample :
    ((addNode trivDict [[], []] 1 (-1) 0 0 NodeClass.Dummy []).getD 1 []).length = 1 ∧
    ((addNode trivDict [[], []] 1 (-1) 0 0 NodeClass.Dummy []).getD
        (0 + countUtf8Chars []) []).length = 0 := by
  constructor <;> rfl

/-- Claim C10 (amended): for every call to `Lattice::add_node`, the node is
appended to bucket index `pos + char_len(surface)` — where `pos` is the
first argument, equal to `start + char_len(surface)` at every candidate call
from `build`, which passes `pos = start` — only when that index is strictly
below the bucket array length; a candidate whose computed index falls at or
beyond the array length is silently discarded, and no other bucket changes,
so lattice construction never writes outside the bucket vector. -/
theorem kagome_c10_add_node_bounds (d : DictCore) (bks : List (List BNode)) (pos : Nat)
    (id : Int) (position start : Nat) (ncl : NodeClass) (surface : List Nat) :
    (addNode d bks pos id position start ncl surface).length = bks.length ∧
    (∀ b : Nat, b ≠ pos + countUtf8Chars surface →
      (addNode d bks pos id position start ncl surface).getD b [] = bks.getD b []) ∧
    (bks.length ≤ pos + countUtf8Chars surface →
      addNode d bks pos id position start ncl surface = bks) ∧
    (pos + countUtf8Chars surface < bks.length →
      ∃ nd : BNode, nd.start = start ∧ nd.position = position ∧ nd.nclass = ncl ∧
        nd.surface = surface ∧
        (addNode d bks pos id position start ncl surface).getD
            (pos + countUtf8Chars surface) [] =
          bks.getD (pos + countUtf8Chars surface) [] ++ [nd]) := by
  have htp : (if surface = [] then pos else pos + countUtf8Chars surface) =
      pos + countUtf8Chars surface := by
    by_cases hs : surface = []
    · subst hs; simp [countUtf8Chars_nil]
    · rw [if_neg hs]
  unfold addNode
  rw [htp]
  by_cases hlt : pos + countUtf8Chars surface < bks.length
  · rw [if_pos hlt]
    refine ⟨List.length_set _ _ _, ?_, ?_, ?_⟩
    · intro b hb
      exact getD_set_ne _ _ _ _ _ (fun he => hb he.symm)
    · intro hge; omega
    · intro _
      exact ⟨_, rfl, rfl, rfl, rfl, getD_set_eq _ _ _ _ hlt⟩
  · rw [if_neg hlt]
    exact ⟨rfl, fun _ _ => rfl, fun _ => rfl, fun h => absurd h hlt⟩

/-- Claim C9: `kagome_detect_language` returns `-1` exactly when no decoded
code point of the input has a Japanese script (Hiragana, Katakana or Han,
abstracted by `jscript`) — in particular for empty input — and otherwise
`clamp(0.3 + (ja/total) * 0.65, 0.3, 0.95)` where `total` counts the decode
steps and `ja` the Japanese ones; consequently every return value is `-1`
or lies in `[0.3, 0.95]`. -/
theorem kagome_c9_detect_language (jscript : Nat → Bool) (text : List Nat) :
    detectLanguage jscript text =
      (if (decodeAll text).countP (isJaCp jscript) = 0 then (-1 : ℚ)
       else
         max (0.3 : ℚ) (min (0.95 : ℚ)
           ((0.3 : ℚ) +
             (((decodeAll text).countP (isJaCp jscript) : ℚ) /
               ((decodeAll text).length : ℚ)) * (0.65 : ℚ)))) ∧
    (detectLanguage jscript text = -1 ∨
      ((0.3 : ℚ) ≤ detectLanguage jscript text ∧
        detectLanguage jscript text ≤ (0.95 : ℚ))) := by
  have hcontains : containsJapaneseChars jscript text = true ↔
      0 < (decodeAll text).countP (isJaCp jscript) := by
    simp [containsJapaneseChars, List.any_eq_true, List.countP_pos_iff]
  have hE : detectLanguage jscript text =
      (if (decodeAll text).countP (isJaCp jscript) = 0 then (-1 : ℚ)
       else
         max (0.3 : ℚ) (min (0.95 : ℚ)
           ((0.3 : ℚ) +
             (((decodeAll text).countP (isJaCp jscript) : ℚ) /
               ((decodeAll text).length : ℚ)) * (0.65 : ℚ)))) := by
    by_cases hz : (decodeAll text).countP (isJaCp jscript) = 0
    · rw [if_pos hz]
      unfold detectLanguage
      by_cases ht : text = []
      · rw [if_pos ht]
      · rw [if_neg ht, if_neg]
        rw [hcontains]
        omega
    · rw [if_neg hz]
      have hc : containsJapaneseChars jscript text = true := hcontains.mpr (by omega)
      have ht : text ≠ [] := by
        intro he
        subst he
        rw [decodeAll_nil] at hz
        exact hz rfl
      have hle : (decodeAll text).countP (isJaCp jscript) ≤ (decodeAll text).length :=
        List.countP_le_length _
      have hpos : 0 < (decodeAll text).length := by omega
      unfold detectLanguage
      rw [if_neg ht, if_pos hc, if_pos hpos]
  refine ⟨hE, ?_⟩
  rw [hE]
  by_cases hz : (decodeAll text).countP (isJaCp jscript) = 0
  · left; rw [if_pos hz]
  · right
    rw [if_neg hz]
    constructor
    · exact le_max_left _ _
    · exact max_le (by norm_num) (min_le_left _ _)

/-! Claim C3 support: characterization of `is_kanji_only` and
`additional_cost` on valid UTF-8 surfaces. -/

theorem chunksBytes_ne_nil {u : UcharC} (rest : List UcharC) (hu : UcharOK u) :
    chunksBytes (u :: rest) ≠ [] := by
  rw [chunksBytes_cons]
  intro he
  exact hu.ne_nil (List.append_eq_nil.mp he).1

theorem isKanjiOnlyAux_chunks (ideo : Nat → Bool) :
    ∀ (cs : List UcharC), (∀ u ∈ cs, UcharOK u) →
      ∀ f : Nat, (chunksBytes cs).length ≤ f → ∀ found : Bool,
        isKanjiOnlyAux ideo f (chunksBytes cs) found =
          (if cs = [] then found else cs.all (fun v => ideo v.cp)) := by
  intro cs
  induction cs with
  | nil =>
    intro _ f _ found
    cases f <;> simp [isKanjiOnlyAux, chunksBytes, u8Next]
  | cons u rest ih =>
    intro hok f hf found
    have hu : UcharOK u := hok u (by simp)
    have hlen : 1 ≤ u.bytes.length := hu.len_pos
    rw [chunksBytes_cons] at hf ⊢
    rw [List.length_append] at hf
    obtain ⟨f1, rfl⟩ : ∃ f1, f = f1 + 1 := ⟨f - 1, by omega⟩
    simp only [isKanjiOnlyAux, hu (chunksBytes rest)]
    rw [List.drop_left]
    by_cases hi : ideo u.cp
    · rw [if_pos hi, ih (fun v hv => hok v (by simp [hv])) f1 (by omega) true]
      by_cases hr : rest = []
      · subst hr; simp [hi]
      · simp [hr, hi]
    · rw [if_neg hi]
      simp [hi]

theorem isKanjiOnly_chunks (ideo : Nat → Bool) {cs : List UcharC}
    (hok : ∀ u ∈ cs, UcharOK u) :
    isKanjiOnly ideo (chunksBytes cs) =
      (decide (cs ≠ []) && cs.all (fun v => ideo v.cp)) := by
  cases cs with
  | nil => simp [isKanjiOnly, chunksBytes]
  | cons u rest =>
    have hu : UcharOK u := hok u (by simp)
    have hne := chunksBytes_ne_nil rest hu
    unfold isKanjiOnly
    rw [if_neg hne,
      isKanjiOnlyAux_chunks ideo (u :: rest) hok (chunksBytes (u :: rest)).length
        (le_refl _) false]
    simp

/-- Claim C3: in Search and Extended modes the forward step cost of a
predecessor `p` and target `t` equals the Normal-mode step cost plus
`additional_cost(p.surface)` — the penalty attaches to the predecessor being
extended, not to the target — and on a valid UTF-8 surface of `n` code
points `additional_cost` is `(n - 2) * 3000` when `n > 2` and every code
point is Ideographic, else `(n - 7) * 1700` when `n > 7`, else `0`. -/
theorem kagome_c3_additional_cost (d : DictCore) (mode : LatticeMode) (p t : BNode)
    (cs : List UcharC) (hok : ∀ u ∈ cs, UcharOK u) (hsurf : p.surface = chunksBytes cs)
    (hmode : mode ≠ LatticeMode.Normal) :
    stepTotal d mode p t =
      stepTotal d LatticeMode.Normal p t + additionalCost d.ideographic p.surface ∧
    additionalCost d.ideographic p.surface =
      (if 2 < (cs.length : Int) ∧ (∀ u ∈ cs, d.ideographic u.cp = true) then
        ((cs.length : Int) - 2) * 3000
       else if 7 < (cs.length : Int) then ((cs.length : Int) - 7) * 1700
       else 0) := by
  constructor
  · simp [stepTotal, hmode]
  · rw [hsurf]
    cases cs with
    | nil =>
      simp [chunksBytes, additionalCost]
    | cons u rest =>
      have hu : UcharOK u := hok u (by simp)
      have hne := chunksBytes_ne_nil rest hu
      have hcnt := countUtf8Chars_chunks hok
      have hkan2 : (isKanjiOnly d.ideographic (chunksBytes (u :: rest)) = true) ↔
          (∀ v ∈ u :: rest, d.ideographic v.cp = true) := by
        rw [isKanjiOnly_chunks d.ideographic hok]
        simp
      simp only [additionalCost, if_neg hne, hcnt, hkan2]

/-- Witness for C3: a concrete Search-mode instance with a one-character
ASCII surface. -/
def c3Node : BNode :=
  { id := 0, position := 0, start := 0, nclass := NodeClass.Known, cost := 5,
    leftId := 1, rightId := 2, weight := 3, surface := [0x61], prev := none }

theorem kagome_c3_witness :
    stepTotal trivDict LatticeMode.Search c3Node c3Node =
      stepTotal trivDict LatticeMode.Normal c3Node c3Node +
        additionalCost trivDict.ideographic c3Node.surface ∧
    additionalCost trivDict.ideographic c3Node.surface =
      (if 2 < (([⟨[0x61], 0x61⟩] : List UcharC).length : Int) ∧
          (∀ u ∈ ([⟨[0x61], 0x61⟩] : List UcharC), trivDict.ideographic u.cp = true) then
        ((([⟨[0x61], 0x61⟩] : List UcharC).length : Int) - 2) * 3000
       else if 7 < (([⟨[0x61], 0x61⟩] : List UcharC).length : Int) then
        ((([⟨[0x61], 0x61⟩] : List UcharC).length : Int) - 7) * 1700
       else 0) :=
  kagome_c3_additional_cost trivDict LatticeMode.Search c3Node c3Node
    [⟨[0x61], 0x61⟩]
    (by
      intro u hu
      simp only [List.mem_singleton] at hu
      subst hu
      intro r
      simp [u8Next, UcharOK])
    (by simp [c3Node, chunksBytes])
    (by simp)

/-! Claims C1 and C8 support: soundness of the position-validation logic of
`kagome_tokenize` and field characterization of emitted words. -/

theorem findSurface_sound {text surface : List Nat} {pos : Nat}
    (h : findSurface text surface = some pos) :
    pos + surface.length ≤ text.length ∧ slice text pos surface.length = surface ∧
      boundaryOK text pos = true := by
  unfold findSurface at h
  split_ifs at h with hle
  · have hpred := List.find?_some h
    have hmem := List.mem_of_find?_eq_some h
    rw [List.mem_range] at hmem
    simp only [Bool.and_eq_true, decide_eq_true_eq] at hpred
    exact ⟨by omega, hpred.1, hpred.2⟩

theorem findSurface_none {text surface : List Nat}
    (h : findSurface text surface = none) (pos : Nat)
    (hle : pos + surface.length ≤ text.length) :
    ¬(slice text pos surface.length = surface ∧ boundaryOK text pos = true) := by
  rintro ⟨hs, hb⟩
  unfold findSurface at h
  have hsl : surface.length ≤ text.length := by omega
  rw [if_pos hsl, List.find?_eq_none] at h
  have := h pos (by rw [List.mem_range]; omega)
  simp [hs, hb] at this

theorem validTokenPos_sound {text : List Nat} {tok : TokenM} {pos : Nat}
    (h : validTokenPos text tok = some pos) :
    tok.surface ≠ [] ∧ pos + tok.surface.length ≤ text.length ∧
      slice text pos tok.surface.length = tok.surface ∧ boundaryOK text pos = true := by
  simp only [validTokenPos] at h
  split_ifs at h with h1 h2 h3 h4
  · exact ⟨h1, (findSurface_sound h).1, (findSurface_sound h).2.1, (findSurface_sound h).2.2⟩
  · injection h with h
    subst h
    exact ⟨h1, h4.2.1, h4.2.2.1, h4.2.2.2⟩
  · exact ⟨h1, (findSurface_sound h).1, (findSurface_sound h).2.1, (findSurface_sound h).2.2⟩

theorem validTokenPos_drop {text : List Nat} {tok : TokenM}
    (hno : ∀ pos : Nat, pos + tok.surface.length ≤ text.length →
      ¬(slice text pos tok.surface.length = tok.surface ∧ boundaryOK text pos = true)) :
    validTokenPos text tok = none := by
  have hfs : findSurface text tok.surface = none := by
    unfold findSurface
    split_ifs with hle
    · rw [List.find?_eq_none]
      intro pos hmem
      rw [List.mem_range] at hmem
      have hp := hno pos (by omega)
      simp only [Bool.and_eq_true, decide_eq_true_eq, not_and]
      intro hs hb
      exact hp ⟨hs, hb⟩
    · rfl
  simp only [validTokenPos]
  split_ifs with h1 h2 h3 h4
  · rfl
  · rfl
  · exact hfs
  · exact absurd ⟨h4.2.2.1, h4.2.2.2⟩ (hno tok.start.toNat h4.2.1)
  · exact hfs

theorem mem_kagomeTokenizeWords {text : List Nat} {tokens : List TokenM} {w : WordM}
    (h : w ∈ kagomeTokenizeWords text tokens) :
    ∃ tok ∈ tokens, ∃ pos, validTokenPos text tok = some pos ∧
      emitWord text pos tok = some w := by
  unfold kagomeTokenizeWords validTokens at h
  rw [List.mem_filterMap] at h
  obtain ⟨pt, hpt, hemit⟩ := h
  rw [List.mem_filterMap] at hpt
  obtain ⟨tok, htok, hmap⟩ := hpt
  cases hv : validTokenPos text tok with
  | none => rw [hv] at hmap; exact Option.noConfusion hmap
  | some pos =>
    rw [hv] at hmap
    injection hmap with hmap
    subst hmap
    exact ⟨tok, htok, pos, hv, hemit⟩

theorem emitWord_fields {text : List Nat} {pos : Nat} {tok : TokenM} {w : WordM}
    (h : emitWord text pos tok = some w) :
    w.originalOff = pos ∧ w.originalLen = tok.surface.length ∧
      pos + tok.surface.length ≤ text.length ∧
      w.flags = ((FLAG_TEXT ||| FLAG_UTF ||| FLAG_NORMALISED) |||
          (if tok.posList ≠ [] ∧ tok.posList.headD [] = posKigou then FLAG_EXCEPTION
           else 0)) |||
        (if tok.posList ≠ [] ∧ tok.posList.headD [] ≠ posKigou ∧
            (tok.posList.headD [] = posJoshi ∨ tok.posList.headD [] = posJodoushi) then
          FLAG_STOP_WORD
         else 0) ∧
      (tok.posList ≠ [] ∧ tok.posList.headD [] = posKigou → w.unicode = none) := by
  simp only [emitWord] at h
  split_ifs at h <;>
    (injection h with h <;>
      (subst h;
       refine ⟨rfl, rfl, by omega, ?_, ?_⟩ <;>
         first
           | (split_ifs <;> first | rfl | decide | tauto)
           | (intro hpunct; first | rfl | tauto)))

/-- Claim C1: for every successful `kagome_tokenize` call, every emitted
word points into the caller-supplied text buffer at an offset where the
token's surface bytes occur; every token whose surface cannot be located in
the input (at any in-bounds offset on a UTF-8 boundary) is dropped by the
position-validation loop; and `kagome_cleanup_result` frees the `unicode`,
`normalized` and `stemmed` allocations of every word while leaving the
`original` pointer and length untouched. -/
theorem kagome_c1_tokenize_frame (text : List Nat) (tokens : List TokenM) (ws : List WordM)
    (h : kagomeTokenize text tokens = some ws) :
    (∀ w ∈ ws, ∃ tok ∈ tokens, w.originalLen = tok.surface.length ∧
      w.originalOff + w.originalLen ≤ text.length ∧
      slice text w.originalOff w.originalLen = tok.surface) ∧
    (∀ tok ∈ tokens,
      (∀ pos : Nat, pos + tok.surface.length ≤ text.length →
        ¬(slice text pos tok.surface.length = tok.surface ∧ boundaryOK text pos = true)) →
      validTokenPos text tok = none) ∧
    (kagomeCleanupResult ws).map WordM.originalOff = ws.map WordM.originalOff ∧
    (kagomeCleanupResult ws).map WordM.originalLen = ws.map WordM.originalLen ∧
    (∀ w ∈ kagomeCleanupResult ws,
      w.unicode = none ∧ w.normalized = none ∧ w.stemmed = none) := by
  unfold kagomeTokenize at h
  split_ifs at h with ht
  injection h with h
  subst h
  refine ⟨?_, ?_, ?_, ?_, ?_⟩
  · intro w hw
    obtain ⟨tok, htok, pos, hv, hemit⟩ := mem_kagomeTokenizeWords hw
    obtain ⟨hoff, hlen, hle, _, _⟩ := emitWord_fields hemit
    obtain ⟨_, _, hslice, _⟩ := validTokenPos_sound hv
    exact ⟨tok, htok, hlen, by omega, by rw [hoff, hlen]; exact hslice⟩
  · intro tok _ hno
    exact validTokenPos_drop hno
  · rw [kagomeCleanupResult, List.map_map]
    rfl
  · rw [kagomeCleanupResult, List.map_map]
    rfl
  · intro w hw
    rw [kagomeCleanupResult, List.mem_map] at hw
    obtain ⟨w0, _, hw0⟩ := hw
    subst hw0
    exact ⟨rfl, rfl, rfl⟩

/-- Witness token for C1/C8: surface `"a"` at position 0. -/
def c1Tok : TokenM := { surface := [0x61], start := 0, baseForm := [], posList := [] }

theorem kagome_c1_witness :
    (∀ w ∈ kagomeTokenizeWords [0x61] [c1Tok], ∃ tok ∈ [c1Tok],
      w.originalLen = tok.surface.length ∧
      w.originalOff + w.originalLen ≤ ([0x61] : List Nat).length ∧
      slice [0x61] w.originalOff w.originalLen = tok.surface) ∧
    (∀ tok ∈ [c1Tok],
      (∀ pos : Nat, pos + tok.surface.length ≤ ([0x61] : List Nat).length →
        ¬(slice [0x61] pos tok.surface.length = tok.surface ∧
          boundaryOK [0x61] pos = true)) →
      validTokenPos [0x61] tok = none) ∧
    (kagomeCleanupResult (kagomeTokenizeWords [0x61] [c1Tok])).map WordM.originalOff =
      (kagomeTokenizeWords [0x61] [c1Tok]).map WordM.originalOff ∧
    (kagomeCleanupResult (kagomeTokenizeWords [0x61] [c1Tok])).map WordM.originalLen =
      (kagomeTokenizeWords [0x61] [c1Tok]).map WordM.originalLen ∧
    (∀ w ∈ kagomeCleanupResult (kagomeTokenizeWords [0x61] [c1Tok]),
      w.unicode = none ∧ w.normalized = none ∧ w.stemmed = none) :=
  kagome_c1_tokenize_frame [0x61] [c1Tok] (kagomeTokenizeWords [0x61] [c1Tok]) (by rfl)

/-- Claim C8: every word emitted by `kagome_tokenize` carries flags
`TEXT | UTF | NORMALISED`; a token whose primary POS is `記号` additionally
receives `EXCEPTION` and its `unicode` field is left unset; a token whose
primary POS is `助詞` or `助動詞` additionally receives `STOP_WORD`. -/
theorem kagome_c8_flags (text : List Nat) (tokens : List TokenM) (ws : List WordM)
    (h : kagomeTokenize text tokens = some ws) :
    ∀ w ∈ ws, ∃ tok ∈ tokens,
      w.flags = ((FLAG_TEXT ||| FLAG_UTF ||| FLAG_NORMALISED) |||
          (if tok.posList ≠ [] ∧ tok.posList.headD [] = posKigou then FLAG_EXCEPTION
           else 0)) |||
        (if tok.posList ≠ [] ∧ tok.posList.headD [] ≠ posKigou ∧
            (tok.posList.headD [] = posJoshi ∨ tok.posList.headD [] = posJodoushi) then
          FLAG_STOP_WORD
         else 0) ∧
      (tok.posList ≠ [] ∧ tok.posList.headD [] = posKigou → w.unicode = none) := by
  unfold kagomeTokenize at h
  split_ifs at h with ht
  injection h with h
  subst h
  intro w hw
  obtain ⟨tok, htok, pos, hv, hemit⟩ := mem_kagomeTokenizeWords hw
  obtain ⟨_, _, _, hflags, huni⟩ := emitWord_fields hemit
  exact ⟨tok, htok, hflags, huni⟩

/-- Witness token for C8 with primary POS `記号`. -/
def c8Tok : TokenM := { surface := [0x61], start := 0, baseForm := [], posList := [posKigou] }

theorem kagome_c8_witness :
    ∃ w ∈ kagomeTokenizeWords [0x61] [c8Tok], ∃ tok ∈ [c8Tok],
      w.flags = ((FLAG_TEXT ||| FLAG_UTF ||| FLAG_NORMALISED) |||
          (if tok.posList ≠ [] ∧ tok.posList.headD [] = posKigou then FLAG_EXCEPTION
           else 0)) |||
        (if tok.posList ≠ [] ∧ tok.posList.headD [] ≠ posKigou ∧
            (tok.posList.headD [] = posJoshi ∨ tok.posList.headD [] = posJodoushi) then
          FLAG_STOP_WORD
         else 0) ∧
      (tok.posList ≠ [] ∧ tok.posList.headD [] = posKigou → w.unicode = none) := by
  have hmem : (kagomeTokenizeWords [0x61] [c8Tok]).headD default ∈
      kagomeTokenizeWords [0x61] [c8Tok] := by decide
  exact ⟨(kagomeTokenizeWords [0x61] [c8Tok]).headD default, hmem,
    kagome_c8_flags [0x61] [c8Tok] (kagomeTokenizeWords [0x61] [c8Tok]) (by rfl)
      ((kagomeTokenizeWords [0x61] [c8Tok]).headD default) hmem⟩

/-! Claim C4: the Extended-mode split of Unknown nodes. -/

/-- Dictionary for the C4 run: no system hits, one grouped Default category
with a single unknown entry. -/
def c4Dict : DictCore where
  morphs := []
  conn := fun _ _ => 0
  charCategory := fun _ => 0
  groupList := [true]
  unkIndexSize := 1
  unkIndex := fun _ => 0
  unkDupSize := 1
  unkDup := fun _ => 0
  unkMorphs := [⟨0, 0, 0⟩]
  sysSearch := fun _ => []
  ideographic := fun _ => false

/-- Claim C4, failing run: tokenizing `"ab"` in Extended mode with `c4Dict`
puts the grouped Unknown node `"ab"` on the best path; `backward` splits it
into the single-character Dummy pieces, but because the pieces are appended
in forward order to the EOS-to-BOS `collected_nodes` list and the whole list
is then reversed, the final BOS-to-EOS output carries them in REVERSE
character order: surface `"b"` (byte position 1) precedes surface `"a"`
(byte position 0), violating the claimed forward order and strictly
increasing positions. -/
theorem kagome_c4_extended_split_reversed :
    (backward LatticeMode.Extended (forward c4Dict LatticeMode.Extended
        (build c4Dict none [0x61, 0x62]))).map (fun nd => (nd.surface, nd.position)) =
      [([], 0), ([0x62], 1), ([0x61], 0), ([], 2)] := by decide

/-! Claim C6: failure semantics of the backward pass. -/

/-- Dictionary for the C6 run: one pathological system hit of a single byte
inside the three-byte character `あ`, so that no node ends at character
position 1 and EOS becomes dead. -/
def c6Dict : DictCore where
  morphs := []
  conn := fun _ _ => 0
  charCategory := fun _ => 0
  groupList := []
  unkIndexSize := 0
  unkIndex := fun _ => 0
  unkDupSize := 0
  unkDup := fun _ => 0
  unkMorphs := []
  sysSearch := fun l => if l = [0xE3, 0x81, 0x82] then [(0, 1)] else []
  ideographic := fun _ => false

/-- Claim C6, counterexample: after `build` and `forward` on input `あ` with
`c6Dict`, the EOS node has accumulated cost `MAXIMUM_COST` (its start bucket
is empty), yet `backward` returns the non-empty output `[EOS]` — the code
only checks for an empty EOS bucket, never for the `MAXIMUM_COST` cost the
claim mentions. -/
theorem kagome_c6_counterexample :
    (getNode (forward c6Dict LatticeMode.Normal
        (build c6Dict none [0xE3, 0x81, 0x82])) 2 0).cost = MAXIMUM_COST ∧
      backward LatticeMode.Normal
          (forward c6Dict LatticeMode.Normal (build c6Dict none [0xE3, 0x81, 0x82])) ≠ [] := by
  decide

/-- Claim C6 (amended): `backward` produces an empty output list exactly in
the cases it checks — an empty bucket array or an empty EOS bucket — and it
never throws; when the EOS node survives with no predecessor (as happens
when its cost was set to `MAXIMUM_COST` by a dead start bucket), the output
is the single EOS node rather than the empty list. -/
theorem kagome_c6_backward_failure :
    (∀ (mode : LatticeMode) (bks : List (List BNode)),
      (bks.length = 0 ∨ bks.getD (bks.length - 1) [] = []) → backward mode bks = []) ∧
    (∀ (mode : LatticeMode) (bks : List (List BNode)) (nd : BNode),
      (bks.getD (bks.length - 1) []).head? = some nd → nd.prev = none →
      (mode ≠ LatticeMode.Extended ∨ nd.nclass ≠ NodeClass.Unknown) →
      backward mode bks = [nd]) := by
  constructor
  · intro mode bks h
    unfold backward
    rw [if_pos h]
  · intro mode bks nd hhead hprev hcls
    have hne : bks.getD (bks.length - 1) [] ≠ [] := by
      intro he; rw [he] at hhead; exact Option.noConfusion hhead
    have hget : getNode bks (bks.length - 1) 0 = nd := by
      have h0 : (bks.getD (bks.length - 1) [])[0]? = some nd := by
        rw [← List.head?_eq_getElem?]
        exact hhead
      unfold getNode
      rw [List.getD_eq_getElem?_getD, h0]
      rfl
    unfold backward
    rw [if_neg]
    · obtain ⟨f, hf⟩ : ∃ f, totalNodes bks + 1 = f + 1 := ⟨totalNodes bks, rfl⟩
      rw [hf]
      simp only [backwardAux, hget]
      rw [if_pos hcls, hprev]
      cases f <;> simp [backwardAux]
    · push_neg
      constructor
      · intro he
        have hb : bks = [] := List.length_eq_zero.mp he
        subst hb
        simp at hne
      · exact hne

/-- Head node for the C6 amended-claim witness. -/
def c6EosNode : BNode :=
  { id := -1, position := 3, start := 1, nclass := NodeClass.Dummy, cost := MAXIMUM_COST,
    leftId := 0, rightId := 0, weight := 0, surface := [], prev := none }

theorem kagome_c6_backward_failure_witness :
    backward LatticeMode.Normal ([[]] : List (List BNode)) = [] ∧
    backward LatticeMode.Normal [[], [c6EosNode]] = [c6EosNode] :=
  ⟨kagome_c6_backward_failure.1 LatticeMode.Normal [[]] (Or.inr rfl),
   kagome_c6_backward_failure.2 LatticeMode.Normal [[], [c6EosNode]] c6EosNode rfl rfl
     (Or.inl (by decide))⟩

/-! Claim C5 support: counting Unknown-class nodes across the bucket
array. -/

/-- Number of Unknown-class nodes in the whole bucket array. -/
def unknownCount (bks : List (List BNode)) : Nat :=
  bks.flatten.countP (fun nd => decide (nd.nclass = NodeClass.Unknown))

theorem addNode_length (d : DictCore) (bks : List (List BNode)) (pos : Nat) (id : Int)
    (position start : Nat) (ncl : NodeClass) (surface : List Nat) :
    (addNode d bks pos id position start ncl surface).length = bks.length := by
  simp only [addNode]
  by_cases hlt : (if surface = [] then pos else pos + countUtf8Chars surface) < bks.length
  · rw [if_pos hlt, List.length_set]
  · rw [if_neg hlt]

theorem countP_flatten_set (bks : List (List BNode)) (p : BNode → Bool) :
    ∀ (t : Nat) (nd : BNode),
      (bks.set t (bks.getD t [] ++ [nd])).flatten.countP p =
        bks.flatten.countP p + (if t < bks.length then (if p nd then 1 else 0) else 0) := by
  induction bks with
  | nil => intro t nd; simp
  | cons b rest ih =>
    intro t nd
    cases t with
    | zero =>
      simp only [List.set_cons_zero, List.getD_cons_zero, List.flatten_cons,
        List.countP_append, List.length_cons]
      have : 0 < rest.length + 1 := by omega
      rw [if_pos this]
      simp [List.countP_append]
      cases hp : p nd <;> simp [List.countP_cons, hp] <;> omega
    | succ t =>
      simp only [List.set_cons_succ, List.getD_cons_succ, List.flatten_cons,
        List.countP_append, List.length_cons, ih t nd]
      have hiff : t + 1 < rest.length + 1 ↔ t < rest.length := by omega
      by_cases hlt : t < rest.length
      · rw [if_pos hlt, if_pos (hiff.mpr hlt)]
        omega
      · rw [if_neg hlt, if_neg (fun hc => hlt (hiff.mp hc))]
        omega

theorem unknownCount_addNode (d : DictCore) (bks : List (List BNode)) (pos : Nat)
    (id : Int) (position start : Nat) (ncl : NodeClass) (surface : List Nat) :
    unknownCount (addNode d bks pos id position start ncl surface) =
      unknownCount bks +
        (if (if surface = [] then pos else pos + countUtf8Chars surface) < bks.length ∧
            ncl = NodeClass.Unknown then 1 else 0) := by
  simp only [addNode]
  by_cases hlt : (if surface = [] then pos else pos + countUtf8Chars surface) < bks.length
  · rw [if_pos hlt]
    unfold unknownCount
    rw [countP_flatten_set, if_pos hlt]
    by_cases hcl : ncl = NodeClass.Unknown
    · rw [if_pos (by simp [hcl]), if_pos ⟨hlt, hcl⟩]
    · rw [if_neg (by simp [hcl]), if_neg (fun hc => hcl hc.2)]
  · rw [if_neg hlt, if_neg (fun hc => hlt hc.1)]
    simp

theorem unknownCount_addNode_mono (d : DictCore) (bks : List (List BNode)) (pos : Nat)
    (id : Int) (position start : Nat) (ncl : NodeClass) (surface : List Nat) :
    unknownCount bks ≤
      unknownCount (addNode d bks pos id position start ncl surface) := by
  rw [unknownCount_addNode]
  omega

theorem unknownCount_addHits (d : DictCore) (input : List Nat) (charPos csb : Nat)
    (ncl : NodeClass) (hncl : ncl ≠ NodeClass.Unknown) :
    ∀ (hits : List (Int × Nat)) (bks : List (List BNode)),
      unknownCount (addHits d bks input charPos csb ncl hits) = unknownCount bks := by
  intro hits
  induction hits with
  | nil => intro bks; rfl
  | cons h rest ih =>
    intro bks
    unfold addHits
    rw [List.foldl_cons]
    have := ih (addNode d bks charPos h.1 csb charPos ncl (slice input csb h.2))
    unfold addHits at this
    rw [this, unknownCount_addNode, if_neg]
    · omega
    · intro hc
      exact hncl hc.2

theorem addHits_length (d : DictCore) (input : List Nat) (charPos csb : Nat)
    (ncl : NodeClass) :
    ∀ (hits : List (Int × Nat)) (bks : List (List BNode)),
      (addHits d bks input charPos csb ncl hits).length = bks.length := by
  intro hits
  induction hits with
  | nil => intro bks; rfl
  | cons h rest ih =>
    intro bks
    unfold addHits
    rw [List.foldl_cons]
    have := ih (addNode d bks charPos h.1 csb charPos ncl (slice input csb h.2))
    unfold addHits at this
    rw [this, addNode_length]

theorem unknownCount_addUnknownNodes_lt (d : DictCore) (bks : List (List BNode))
    (input : List Nat) (charPos csb endByte truncEnd uwl cat : Nat)
    (hdup : cat < d.unkIndexSize → cat < d.unkDupSize → 0 ≤ d.unkDup cat)
    (hrange :
      (if slice input csb (endByte - csb) = [] then charPos
       else charPos + countUtf8Chars (slice input csb (endByte - csb))) < bks.length) :
    unknownCount bks <
      unknownCount (addUnknownNodes d bks input charPos csb endByte truncEnd uwl cat) := by
  simp only [addUnknownNodes]
  by_cases hcat : cat < d.unkIndexSize
  · rw [if_pos hcat]
    set fullS := slice input csb (endByte - csb) with hfullS
    set step := fun (bks2 : List (List BNode)) (i : Nat) =>
      addNode d
        (if uwl > 1 then
          addNode d bks2 charPos (d.unkIndex cat + (i : Int)) csb charPos NodeClass.Unknown
            (slice input csb (truncEnd - csb))
         else bks2)
        charPos (d.unkIndex cat + (i : Int)) csb charPos NodeClass.Unknown fullS with hstep
    have hlenstep : ∀ (bks2 : List (List BNode)) (i : Nat),
        (step bks2 i).length = bks2.length := by
      intro bks2 i
      rw [hstep]
      simp only
      split_ifs
      · rw [addNode_length, addNode_length]
      · rw [addNode_length]
    have hmono : ∀ (bks2 : List (List BNode)) (i : Nat),
        unknownCount bks2 ≤ unknownCount (step bks2 i) := by
      intro bks2 i
      rw [hstep]
      simp only
      split_ifs
      · exact le_trans (unknownCount_addNode_mono _ _ _ _ _ _ _ _)
          (unknownCount_addNode_mono _ _ _ _ _ _ _ _)
      · exact unknownCount_addNode_mono _ _ _ _ _ _ _ _
    have hfoldlen : ∀ (l : List Nat) (bks2 : List (List BNode)),
        (l.foldl step bks2).length = bks2.length := by
      intro l
      induction l with
      | nil => intro bks2; rfl
      | cons a t ih =>
        intro bks2
        rw [List.foldl_cons, ih, hlenstep]
    have hfoldmono : ∀ (l : List Nat) (bks2 : List (List BNode)),
        unknownCount bks2 ≤ unknownCount (l.foldl step bks2) := by
      intro l
      induction l with
      | nil => intro bks2; exact le_refl _
      | cons a t ih =>
        intro bks2
        rw [List.foldl_cons]
        exact le_trans (hmono bks2 a) (ih _)
    have hstrict : ∀ (bks2 : List (List BNode)) (i : Nat), bks2.length = bks.length →
        unknownCount bks2 < unknownCount (step bks2 i) := by
      intro bks2 i hlen2
      have htail : ∀ bks3 : List (List BNode), bks3.length = bks.length →
          ∀ bnd : unknownCount bks2 ≤ unknownCount bks3,
            unknownCount bks2 <
              unknownCount (addNode d bks3 charPos (d.unkIndex cat + i) csb charPos
                NodeClass.Unknown fullS) := by
        intro bks3 hlen3 bnd
        rw [unknownCount_addNode, if_pos]
        · omega
        · constructor
          · rw [hlen3]
            exact hrange
          · rfl
      rw [hstep]
      simp only
      split_ifs
      · exact htail _ (by rw [addNode_length]; exact hlen2)
          (unknownCount_addNode_mono _ _ _ _ _ _ _ _)
      · exact htail _ hlen2 (le_refl _)
    have hcnt : 1 ≤ (if cat < d.unkDupSize then d.unkDup cat + 1 else 1).toNat := by
      by_cases hds : cat < d.unkDupSize
      · rw [if_pos hds]
        have := hdup hcat hds
        omega
      · rw [if_neg hds]
        simp
    obtain ⟨m, hm⟩ : ∃ m, (if cat < d.unkDupSize then d.unkDup cat + 1 else 1).toNat
        = m + 1 :=
      ⟨(if cat < d.unkDupSize then d.unkDup cat + 1 else 1).toNat - 1, by omega⟩
    rw [hm, List.range_succ, List.foldl_append, List.foldl_cons, List.foldl_nil]
    exact lt_of_le_of_lt (hfoldmono _ _) (hstrict _ m (hfoldlen _ _))
  · rw [if_neg hcat]
    rw [unknownCount_addNode, if_pos]
    · omega
    · exact ⟨hrange, rfl⟩

/-- Claim C5: during lattice construction, unknown-word candidates are
generated at a position exactly when the user-dictionary and
system-dictionary common-prefix searches produced no hits there, and the
dictionary's `invoke` flag is never consulted: `buildStep` is invariant
under any change of `invoke_list`, it adds no Unknown-class node when
either search has hits, and it adds at least one when both are empty
(provided the category's duplicate count is non-negative and the full
unknown candidate's bucket is in range). -/
theorem kagome_c5_unknown_policy (d : DictM) (u : Option UserDictM) (input : List Nat)
    (st : BuildSt) (cp : Nat) (n : Nat)
    (hdec : u8Next (input.drop st.bytePos) = some (some cp, n)) :
    (∀ v : List Bool,
      buildStep { d with invokeList := v }.toDictCore u input st =
        buildStep d.toDictCore u input st) ∧
    ((match u with
      | some ud => ud.search (input.drop st.bytePos)
      | none => []) ≠ [] ∨ d.sysSearch (input.drop st.bytePos) ≠ [] →
      unknownCount (buildStep d.toDictCore u input st).buckets = unknownCount st.buckets) ∧
    ((match u with
      | some ud => ud.search (input.drop st.bytePos)
      | none => []) = [] ∧ d.sysSearch (input.drop st.bytePos) = [] →
      ∀ endByte uwl truncEnd : Nat,
        (if shouldGroup d.toDictCore (d.charCategory cp) then
          groupRun d.toDictCore input (d.charCategory cp) input.length
            (st.bytePos + n) (st.bytePos + n) 1 st.bytePos
         else (st.bytePos + n, 1, st.bytePos)) = (endByte, uwl, truncEnd) →
        (d.charCategory cp < d.unkIndexSize →
          d.charCategory cp < d.unkDupSize → 0 ≤ d.unkDup (d.charCategory cp)) →
        (if slice input st.bytePos (endByte - st.bytePos) = [] then st.charPos
         else st.charPos +
            countUtf8Chars (slice input st.bytePos (endByte - st.bytePos)))
          < st.buckets.length →
        unknownCount st.buckets < unknownCount (buildStep d.toDictCore u input st).buckets) := by
  refine ⟨fun v => rfl, ?_, ?_⟩
  · intro hhits
    simp only [buildStep, hdec]
    cases u with
    | none =>
      simp only
      have hsys : d.sysSearch (input.drop st.bytePos) ≠ [] := by
        rcases hhits with h | h
        · exact absurd rfl h
        · exact h
      rw [if_neg (by simp), if_pos hsys]
      simp only
      exact unknownCount_addHits _ _ _ _ _ (by simp) _ _
    | some ud =>
      simp only
      by_cases huser : ud.search (input.drop st.bytePos) ≠ []
      · rw [if_pos huser]
        simp only
        exact unknownCount_addHits _ _ _ _ _ (by simp) _ _
      · rw [if_neg huser]
        have hsys : d.sysSearch (input.drop st.bytePos) ≠ [] := by
          rcases hhits with h | h
          · exact absurd h huser
          · exact h
        rw [if_pos hsys]
        simp only
        exact unknownCount_addHits _ _ _ _ _ (by simp) _ _
  · rintro ⟨huser, hsys⟩ endByte uwl truncEnd hg hdup hrange
    simp only [buildStep, hdec]
    have huser2 : (match u with
        | some ud => ud.search (input.drop st.bytePos)
        | none => []) = [] := huser
    cases u with
    | none =>
      simp only
      rw [if_neg (by simp), if_neg (by simpa using hsys), hg]
      simp only
      exact unknownCount_addUnknownNodes_lt _ _ _ _ _ _ _ _ _ hdup hrange
    | some ud =>
      simp only
      rw [if_neg (by simpa using huser2), if_neg (by simpa using hsys), hg]
      simp only
      exact unknownCount_addUnknownNodes_lt _ _ _ _ _ _ _ _ _ hdup hrange

/-- Witness for C5 at a concrete one-byte input with no hits. -/
theorem kagome_c5_witness :
    (∀ v : List Bool,
      buildStep ({ toDictCore := c4Dict, invokeList := v } : DictM).toDictCore none [0x61]
          { buckets := [[], [], []], bytePos := 0, charPos := 0 } =
        buildStep ({ toDictCore := c4Dict, invokeList := [] } : DictM).toDictCore none [0x61]
          { buckets := [[], [], []], bytePos := 0, charPos := 0 }) ∧
    unknownCount ([[], [], []] : List (List BNode)) <
      unknownCount (buildStep ({ toDictCore := c4Dict, invokeList := [] } : DictM).toDictCore
        none [0x61] { buckets := [[], [], []], bytePos := 0, charPos := 0 }).buckets := by
  have h := kagome_c5_unknown_policy ({ toDictCore := c4Dict, invokeList := [] } : DictM)
    none [0x61] { buckets := [[], [], []], bytePos := 0, charPos := 0 } 0x61 1 (by decide)
  refine ⟨h.1, ?_⟩
  have h3 := h.2.2 ⟨rfl, rfl⟩ 1 1 0 (by decide) (by intro h1 h2; decide) (by decide)
  exact h3

/-! Claim C2 support: pointer-level lemmas about `setNode`/`getNode`, and
preservation properties of the forward pass. -/

/-- The claim's per-predecessor candidate value: the 64-bit intermediate
`step_total`, saturated at `MAXIMUM_COST`. -/
def satCost (d : DictCore) (mode : LatticeMode) (p t : BNode) : Int :=
  min (stepTotal d mode p t) MAXIMUM_COST

/-- The value actually stored by `forward`: the saturated total pushed
through the 32-bit cast. -/
def satW (d : DictCore) (mode : LatticeMode) (p t : BNode) : Int :=
  wrap32 (min (stepTotal d mode p t) MAXIMUM_COST)

theorem wrap32_eq_self {x : Int} (h1 : -2147483648 ≤ x) (h2 : x ≤ 2147483647) :
    wrap32 x = x := by
  unfold wrap32
  omega

theorem satW_eq_satCost {d : DictCore} {mode : LatticeMode} {p t : BNode}
    (h : -2147483648 ≤ stepTotal d mode p t) :
    satW d mode p t = satCost d mode p t := by
  unfold satW satCost
  apply wrap32_eq_self
  · have : (-2147483648 : Int) ≤ MAXIMUM_COST := by unfold MAXIMUM_COST; omega
    omega
  · exact min_le_right _ _

/-- Fields of a node that the forward pass never modifies. -/
def sameStatic (a b : BNode) : Prop :=
  a.id = b.id ∧ a.position = b.position ∧ a.start = b.start ∧ a.nclass = b.nclass ∧
    a.leftId = b.leftId ∧ a.rightId = b.rightId ∧ a.weight = b.weight ∧
    a.surface = b.surface

theorem sameStatic_refl (a : BNode) : sameStatic a a :=
  ⟨rfl, rfl, rfl, rfl, rfl, rfl, rfl, rfl⟩

theorem sameStatic_trans {a b c : BNode} (h1 : sameStatic a b) (h2 : sameStatic b c) :
    sameStatic a c := by
  obtain ⟨a1, a2, a3, a4, a5, a6, a7, a8⟩ := h1
  obtain ⟨b1, b2, b3, b4, b5, b6, b7, b8⟩ := h2
  exact ⟨a1.trans b1, a2.trans b2, a3.trans b3, a4.trans b4, a5.trans b5, a6.trans b6,
    a7.trans b7, a8.trans b8⟩

theorem stepTotal_congr (d : DictCore) (mode : LatticeMode) (p : BNode) {t1 t2 : BNode}
    (h : sameStatic t1 t2) : stepTotal d mode p t1 = stepTotal d mode p t2 := by
  obtain ⟨_, _, _, h4, h5, _, h7, _⟩ := h
  unfold stepTotal
  rw [h4, h5, h7]

theorem satW_congr (d : DictCore) (mode : LatticeMode) (p : BNode) {t1 t2 : BNode}
    (h : sameStatic t1 t2) : satW d mode p t1 = satW d mode p t2 := by
  unfold satW
  rw [stepTotal_congr d mode p h]

theorem setNode_length (bks : List (List BNode)) (i j : Nat) (nd : BNode) :
    (setNode bks i j nd).length = bks.length := List.length_set _ _ _

theorem setNode_bucketLen (bks : List (List BNode)) (i j : Nat) (nd : BNode) (b : Nat) :
    ((setNode bks i j nd).getD b []).length = (bks.getD b []).length := by
  unfold setNode
  by_cases hib : i = b
  · subst hib
    by_cases hlt : i < bks.length
    · rw [getD_set_eq _ _ _ _ hlt, List.length_set]
    · rw [List.set_eq_of_length_le (le_of_not_lt hlt)]
  · rw [getD_set_ne _ _ _ _ _ hib]

theorem getNode_setNode_ne (bks : List (List BNode)) (i j : Nat) (nd : BNode)
    (b k : Nat) (h : ¬(b = i ∧ k = j)) :
    getNode (setNode bks i j nd) b k = getNode bks b k := by
  unfold getNode setNode
  by_cases hib : i = b
  · subst hib
    have hjk : j ≠ k := by
      intro he
      exact h ⟨rfl, he.symm⟩
    by_cases hlt : i < bks.length
    · rw [getD_set_eq _ _ _ _ hlt, List.getD_eq_getElem?_getD,
        List.getElem?_set_ne hjk, ← List.getD_eq_getElem?_getD]
    · rw [List.set_eq_of_length_le (le_of_not_lt hlt)]
  · rw [getD_set_ne _ _ _ _ _ hib]

theorem getNode_setNode_eq (bks : List (List BNode)) (i j : Nat) (nd : BNode)
    (hi : i < bks.length) (hj : j < (bks.getD i []).length) :
    getNode (setNode bks i j nd) i j = nd := by
  unfold getNode setNode
  rw [getD_set_eq _ _ _ _ hi, List.getD_eq_getElem?_getD, List.getElem?_set_self hj]
  rfl

theorem forwardK_length (d : DictCore) (mode : LatticeMode) (bks : List (List BNode))
    (i j k : Nat) : (forwardK d mode bks i j k).length = bks.length := by
  simp only [forwardK]
  split_ifs
  · exact setNode_length _ _ _ _
  · rfl

theorem forwardK_bucketLen (d : DictCore) (mode : LatticeMode) (bks : List (List BNode))
    (i j k b : Nat) :
    ((forwardK d mode bks i j k).getD b []).length = (bks.getD b []).length := by
  simp only [forwardK]
  split_ifs
  · exact setNode_bucketLen _ _ _ _ _
  · rfl

theorem forwardK_getNode_ne (d : DictCore) (mode : LatticeMode) (bks : List (List BNode))
    (i j k b k2 : Nat) (h : ¬(b = i ∧ k2 = j)) :
    getNode (forwardK d mode bks i j k) b k2 = getNode bks b k2 := by
  simp only [forwardK]
  split_ifs
  · exact getNode_setNode_ne _ _ _ _ _ _ h
  · rfl

theorem foldK_length (d : DictCore) (mode : LatticeMode) (i j : Nat) :
    ∀ (ks : List Nat) (bks : List (List BNode)),
      ((ks.foldl (fun b k => forwardK d mode b i j k) bks)).length = bks.length := by
  intro ks
  induction ks with
  | nil => intro bks; rfl
  | cons a t ih =>
    intro bks
    rw [List.foldl_cons, ih, forwardK_length]

theorem foldK_bucketLen (d : DictCore) (mode : LatticeMode) (i j : Nat) :
    ∀ (ks : List Nat) (bks : List (List BNode)) (b : Nat),
      (((ks.foldl (fun b2 k => forwardK d mode b2 i j k) bks)).getD b []).length =
        (bks.getD b []).length := by
  intro ks
  induction ks with
  | nil => intro bks b; rfl
  | cons a t ih =>
    intro bks b
    rw [List.foldl_cons, ih, forwardK_bucketLen]

theorem foldK_getNode_ne (d : DictCore) (mode : LatticeMode) (i j : Nat) :
    ∀ (ks : List Nat) (bks : List (List BNode)) (b k2 : Nat), ¬(b = i ∧ k2 = j) →
      getNode ((ks.foldl (fun b2 k => forwardK d mode b2 i j k) bks)) b k2 =
        getNode bks b k2 := by
  intro ks
  induction ks with
  | nil => intro bks b k2 _; rfl
  | cons a t ih =>
    intro bks b k2 h
    rw [List.foldl_cons, ih _ _ _ h, forwardK_getNode_ne _ _ _ _ _ _ _ _ h]

/-- Prefix of the predecessor loop of `Lattice::forward`: process
predecessor indices `0, ..., K-1` for target node `(i, j)`. -/
def foldK (d : DictCore) (mode : LatticeMode) (bks : List (List BNode)) (i j K : Nat) :
    List (List BNode) :=
  (List.range' 0 K).foldl (fun b k => forwardK d mode b i j k) bks

theorem foldK_zero (d : DictCore) (mode : LatticeMode) (bks : List (List BNode))
    (i j : Nat) : foldK d mode bks i j 0 = bks := rfl

theorem foldK_succ (d : DictCore) (mode : LatticeMode) (bks : List (List BNode))
    (i j K : Nat) :
    foldK d mode bks i j (K + 1) = forwardK d mode (foldK d mode bks i j K) i j K := by
  unfold foldK
  rw [List.range'_1_concat, List.foldl_append, List.foldl_cons, List.foldl_nil,
    Nat.zero_add]

theorem foldK_len (d : DictCore) (mode : LatticeMode) (bks : List (List BNode))
    (i j K : Nat) : (foldK d mode bks i j K).length = bks.length :=
  foldK_length d mode i j _ bks

theorem foldK_bucket (d : DictCore) (mode : LatticeMode) (bks : List (List BNode))
    (i j K b : Nat) :
    ((foldK d mode bks i j K).getD b []).length = (bks.getD b []).length :=
  foldK_bucketLen d mode i j _ bks b

theorem foldK_ne (d : DictCore) (mode : LatticeMode) (bks : List (List BNode))
    (i j K b k2 : Nat) (h : ¬(b = i ∧ k2 = j)) :
    getNode (foldK d mode bks i j K) b k2 = getNode bks b k2 :=
  foldK_getNode_ne d mode i j _ bks b k2 h

theorem foldK_spec (d : DictCore) (mode : LatticeMode) (bks : List (List BNode))
    (i j : Nat) (hi : i < bks.length) (hj : j < (bks.getD i []).length)
    (hs : (getNode bks i j).start ≠ i) :
    ∀ K : Nat,
      sameStatic (getNode (foldK d mode bks i j K) i j) (getNode bks i j) ∧
      (1 ≤ K → ∃ k0, k0 < K ∧
        (getNode (foldK d mode bks i j K) i j).prev = some ((getNode bks i j).start, k0) ∧
        (getNode (foldK d mode bks i j K) i j).cost =
          satW d mode (getNode bks (getNode bks i j).start k0) (getNode bks i j) ∧
        (∀ k, k < K → (getNode (foldK d mode bks i j K) i j).cost ≤
          satW d mode (getNode bks (getNode bks i j).start k) (getNode bks i j)) ∧
        (∀ k, k < k0 → (getNode (foldK d mode bks i j K) i j).cost <
          satW d mode (getNode bks (getNode bks i j).start k) (getNode bks i j))) := by
  intro K
  induction K with
  | zero => exact ⟨sameStatic_refl _, by omega⟩
  | succ K ih =>
    obtain ⟨ihstat, ihmin⟩ := ih
    have hlen : (foldK d mode bks i j K).length = bks.length := foldK_len d mode bks i j K
    have hblen : ((foldK d mode bks i j K).getD i []).length = (bks.getD i []).length :=
      foldK_bucket d mode bks i j K i
    have hstart : (getNode (foldK d mode bks i j K) i j).start = (getNode bks i j).start :=
      ihstat.2.2.1
    have hp : getNode (foldK d mode bks i j K) (getNode bks i j).start K =
        getNode bks (getNode bks i j).start K :=
      foldK_ne d mode bks i j K _ _ (fun hc => hs hc.1)
    have hsw : wrap32 (min (stepTotal d mode (getNode bks (getNode bks i j).start K)
          (getNode (foldK d mode bks i j K) i j)) MAXIMUM_COST) =
        satW d mode (getNode bks (getNode bks i j).start K) (getNode bks i j) := by
      unfold satW
      rw [stepTotal_congr d mode _ ihstat]
    obtain ⟨e1, e2, e3, e4, e5, e6, e7, e8⟩ := ihstat
    rw [foldK_succ]
    simp only [forwardK]
    rw [hstart, hp, hsw]
    have hieq : i < (foldK d mode bks i j K).length := by rw [hlen]; exact hi
    have hjeq : j < ((foldK d mode bks i j K).getD i []).length := by
      rw [hblen]; exact hj
    by_cases hK0 : K = 0
    · subst hK0
      rw [if_pos (Or.inl rfl)]
      rw [getNode_setNode_eq _ _ _ _ hieq hjeq]
      constructor
      · exact ⟨e1, e2, rfl, e4, e5, e6, e7, e8⟩
      · intro _
        refine ⟨0, by omega, rfl, rfl, ?_, by omega⟩
        intro k hk
        have hk : k = 0 := by omega
        subst hk
        exact le_refl _
    · obtain ⟨k0, hk0K, hprev, hcost, hmin, hstrict⟩ := ihmin (by omega)
      by_cases hlt : satW d mode (getNode bks (getNode bks i j).start K) (getNode bks i j) <
          (getNode (foldK d mode bks i j K) i j).cost
      · rw [if_pos (Or.inr hlt)]
        rw [getNode_setNode_eq _ _ _ _ hieq hjeq]
        constructor
        · exact ⟨e1, e2, rfl, e4, e5, e6, e7, e8⟩
        · intro _
          refine ⟨K, by omega, rfl, rfl, ?_, ?_⟩
          · intro k hk
            by_cases hkK : k < K
            · exact le_of_lt (lt_of_lt_of_le (hcost ▸ hlt) (hmin k hkK))
            · have hk : k = K := by omega
              subst hk
              exact le_refl _
          · intro k hk
            exact lt_of_lt_of_le (hcost ▸ hlt) (hmin k hk)
      · rw [if_neg (by push_neg; exact ⟨hK0, not_lt.mp hlt⟩)]
        constructor
        · exact ⟨e1, e2, e3, e4, e5, e6, e7, e8⟩
        · intro _
          refine ⟨k0, by omega, hprev, hcost, ?_, hstrict⟩
          intro k hk
          by_cases hkK : k < K
          · exact hmin k hkK
          · have hk : k = K := by omega
            subst hk
            exact not_lt.mp hlt

theorem forwardNode_length (d : DictCore) (mode : LatticeMode) (bks : List (List BNode))
    (i j : Nat) : (forwardNode d mode bks i j).length = bks.length := by
  simp only [forwardNode]
  split_ifs
  · exact setNode_length _ _ _ _
  · exact setNode_length _ _ _ _
  · exact foldK_len d mode bks i j _

theorem forwardNode_bucketLen (d : DictCore) (mode : LatticeMode)
    (bks : List (List BNode)) (i j b : Nat) :
    ((forwardNode d mode bks i j).getD b []).length = (bks.getD b []).length := by
  simp only [forwardNode]
  split_ifs
  · exact setNode_bucketLen _ _ _ _ _
  · exact setNode_bucketLen _ _ _ _ _
  · exact foldK_bucket d mode bks i j _ b

theorem forwardNode_getNode_ne (d : DictCore) (mode : LatticeMode)
    (bks : List (List BNode)) (i j b k2 : Nat) (h : ¬(b = i ∧ k2 = j)) :
    getNode (forwardNode d mode bks i j) b k2 = getNode bks b k2 := by
  simp only [forwardNode]
  split_ifs
  · exact getNode_setNode_ne _ _ _ _ _ _ h
  · exact getNode_setNode_ne _ _ _ _ _ _ h
  · exact foldK_ne d mode bks i j _ b k2 h

theorem forwardNode_spec (d : DictCore) (mode : LatticeMode) (bks : List (List BNode))
    (i j : Nat) (hi : i < bks.length) (hj : j < (bks.getD i []).length)
    (hs : (getNode bks i j).start ≠ i) (hslt : (getNode bks i j).start < bks.length) :
    ((bks.getD (getNode bks i j).start []).length = 0 →
      getNode (forwardNode d mode bks i j) i j =
        { getNode bks i j with cost := MAXIMUM_COST }) ∧
    (0 < (bks.getD (getNode bks i j).start []).length →
      sameStatic (getNode (forwardNode d mode bks i j) i j) (getNode bks i j) ∧
      ∃ k0, k0 < (bks.getD (getNode bks i j).start []).length ∧
        (getNode (forwardNode d mode bks i j) i j).prev =
          some ((getNode bks i j).start, k0) ∧
        (getNode (forwardNode d mode bks i j) i j).cost =
          satW d mode (getNode bks (getNode bks i j).start k0) (getNode bks i j) ∧
        (∀ k, k < (bks.getD (getNode bks i j).start []).length →
          (getNode (forwardNode d mode bks i j) i j).cost ≤
            satW d mode (getNode bks (getNode bks i j).start k) (getNode bks i j)) ∧
        (∀ k, k < k0 → (getNode (forwardNode d mode bks i j) i j).cost <
          satW d mode (getNode bks (getNode bks i j).start k) (getNode bks i j))) := by
  simp only [forwardNode]
  rw [if_neg (not_le.mpr hslt)]
  by_cases hz : (bks.getD (getNode bks i j).start []).length = 0
  · rw [if_pos hz]
    constructor
    · intro _
      exact getNode_setNode_eq _ _ _ _ hi hj
    · intro hpos
      omega
  · rw [if_neg hz]
    constructor
    · intro hzz
      exact absurd hzz hz
    · intro hpos
      have hspec := foldK_spec d mode bks i j hi hj hs
        (bks.getD (getNode bks i j).start []).length
      exact ⟨hspec.1, hspec.2 (by omega)⟩

/-- Fold of `forwardBucket` over a list of bucket indices. -/
def foldB (d : DictCore) (mode : LatticeMode) (bks : List (List BNode)) (is2 : List Nat) :
    List (List BNode) :=
  is2.foldl (fun b i => forwardBucket d mode b i) bks

/-- Fold of `forwardNode` over a list of node indices of bucket `i`. -/
def foldN (d : DictCore) (mode : LatticeMode) (bks : List (List BNode)) (i : Nat)
    (js : List Nat) : List (List BNode) :=
  js.foldl (fun b j => forwardNode d mode b i j) bks

theorem foldN_length (d : DictCore) (mode : LatticeMode) (i : Nat) :
    ∀ (js : List Nat) (bks : List (List BNode)),
      (foldN d mode bks i js).length = bks.length := by
  intro js
  induction js with
  | nil => intro bks; rfl
  | cons a t ih =>
    intro bks
    unfold foldN at ih ⊢
    rw [List.foldl_cons, ih, forwardNode_length]

theorem foldN_bucketLen (d : DictCore) (mode : LatticeMode) (i : Nat) :
    ∀ (js : List Nat) (bks : List (List BNode)) (b : Nat),
      ((foldN d mode bks i js).getD b []).length = (bks.getD b []).length := by
  intro js
  induction js with
  | nil => intro bks b; rfl
  | cons a t ih =>
    intro bks b
    unfold foldN at ih ⊢
    rw [List.foldl_cons, ih, forwardNode_bucketLen]

theorem foldN_getNode_ne (d : DictCore) (mode : LatticeMode) (i : Nat) :
    ∀ (js : List Nat) (bks : List (List BNode)) (b k2 : Nat), (b ≠ i ∨ k2 ∉ js) →
      getNode (foldN d mode bks i js) b k2 = getNode bks b k2 := by
  intro js
  induction js with
  | nil => intro bks b k2 _; rfl
  | cons a t ih =>
    intro bks b k2 h
    unfold foldN at ih ⊢
    rw [List.foldl_cons]
    have htail : b ≠ i ∨ k2 ∉ t := by
      rcases h with h | h
      · exact Or.inl h
      · exact Or.inr (fun hm => h (List.mem_cons_of_mem _ hm))
    have hhead : ¬(b = i ∧ k2 = a) := by
      rintro ⟨hb, hk⟩
      rcases h with h | h
      · exact h hb
      · exact h (hk ▸ List.mem_cons_self _ _)
    rw [ih _ _ _ htail, forwardNode_getNode_ne _ _ _ _ _ _ _ hhead]

theorem forwardBucket_length (d : DictCore) (mode : LatticeMode) (bks : List (List BNode))
    (i : Nat) : (forwardBucket d mode bks i).length = bks.length :=
  foldN_length d mode i _ bks

theorem forwardBucket_bucketLen (d : DictCore) (mode : LatticeMode)
    (bks : List (List BNode)) (i b : Nat) :
    ((forwardBucket d mode bks i).getD b []).length = (bks.getD b []).length :=
  foldN_bucketLen d mode i _ bks b

theorem forwardBucket_getNode_ne (d : DictCore) (mode : LatticeMode)
    (bks : List (List BNode)) (i b k2 : Nat) (h : b ≠ i) :
    getNode (forwardBucket d mode bks i) b k2 = getNode bks b k2 :=
  foldN_getNode_ne d mode i _ bks b k2 (Or.inl h)

theorem foldB_length (d : DictCore) (mode : LatticeMode) :
    ∀ (is2 : List Nat) (bks : List (List BNode)),
      (foldB d mode bks is2).length = bks.length := by
  intro is2
  induction is2 with
  | nil => intro bks; rfl
  | cons a t ih =>
    intro bks
    unfold foldB at ih ⊢
    rw [List.foldl_cons, ih, forwardBucket_length]

theorem foldB_bucketLen (d : DictCore) (mode : LatticeMode) :
    ∀ (is2 : List Nat) (bks : List (List BNode)) (b : Nat),
      ((foldB d mode bks is2).getD b []).length = (bks.getD b []).length := by
  intro is2
  induction is2 with
  | nil => intro bks b; rfl
  | cons a t ih =>
    intro bks b
    unfold foldB at ih ⊢
    rw [List.foldl_cons, ih, forwardBucket_bucketLen]

theorem foldB_getNode_ne (d : DictCore) (mode : LatticeMode) :
    ∀ (is2 : List Nat) (bks : List (List BNode)) (b k2 : Nat), b ∉ is2 →
      getNode (foldB d mode bks is2) b k2 = getNode bks b k2 := by
  intro is2
  induction is2 with
  | nil => intro bks b k2 _; rfl
  | cons a t ih =>
    intro bks b k2 h
    unfold foldB at ih ⊢
    rw [List.foldl_cons]
    have ha : b ≠ a := fun he => h (he ▸ List.mem_cons_self _ _)
    rw [ih _ _ _ (fun hm => h (List.mem_cons_of_mem _ hm)),
      forwardBucket_getNode_ne _ _ _ _ _ _ ha]

theorem sameStatic_symm {a b : BNode} (h : sameStatic a b) : sameStatic b a := by
  obtain ⟨h1, h2, h3, h4, h5, h6, h7, h8⟩ := h
  exact ⟨h1.symm, h2.symm, h3.symm, h4.symm, h5.symm, h6.symm, h7.symm, h8.symm⟩

theorem forward_eq_foldB (d : DictCore) (mode : LatticeMode) (bks : List (List BNode)) :
    forward d mode bks = foldB d mode bks (List.range' 1 (bks.length - 1)) := rfl

theorem forward_bucketLen (d : DictCore) (mode : LatticeMode) (bks : List (List BNode))
    (b : Nat) :
    ((forward d mode bks).getD b []).length = (bks.getD b []).length := by
  rw [forward_eq_foldB]
  exact foldB_bucketLen d mode _ bks b

/-- Localization of the forward pass: the final value of node `(i, j)` is the
value computed by `forwardNode` on the intermediate state `st` in which all
buckets before `i` are final (they agree with the final state) and node
`(i, j)` itself is still untouched. -/
theorem forward_localize (d : DictCore) (mode : LatticeMode) (bks : List (List BNode))
    (i j : Nat) (h1 : 1 ≤ i) (hi : i < bks.length) (hj : j < (bks.getD i []).length) :
    ∃ st : List (List BNode),
      st.length = bks.length ∧
      (∀ b : Nat, (st.getD b []).length = (bks.getD b []).length) ∧
      getNode st i j = getNode bks i j ∧
      (∀ b k2 : Nat, b < i → getNode (forward d mode bks) b k2 = getNode st b k2) ∧
      getNode (forward d mode bks) i j = getNode (forwardNode d mode st i j) i j := by
  set AL := foldB d mode bks (List.range' 1 (i - 1)) with hAL
  set stJ := foldN d mode AL i (List.range' 0 j) with hstJ
  have hALlen : AL.length = bks.length := foldB_length d mode _ bks
  have hALbucket : ∀ b, (AL.getD b []).length = (bks.getD b []).length :=
    fun b => foldB_bucketLen d mode _ bks b
  have hstJlen : stJ.length = bks.length := by
    rw [hstJ, foldN_length, hALlen]
  have hstJbucket : ∀ b, (stJ.getD b []).length = (bks.getD b []).length := by
    intro b
    rw [hstJ, foldN_bucketLen, hALbucket]
  have hALnode : ∀ b k2 : Nat, b ∉ List.range' 1 (i - 1) →
      getNode AL b k2 = getNode bks b k2 :=
    fun b k2 hb => foldB_getNode_ne d mode _ bks b k2 hb
  have hstJij : getNode stJ i j = getNode bks i j := by
    rw [hstJ, foldN_getNode_ne d mode i _ AL i j (Or.inr (by
      intro hm
      rw [List.mem_range'] at hm
      obtain ⟨k, hk, he⟩ := hm
      omega))]
    apply hALnode
    intro hm
    rw [List.mem_range'] at hm
    obtain ⟨k, hk, he⟩ := hm
    omega
  -- decompose forward
  have hsplit : List.range' 1 (bks.length - 1) =
      List.range' 1 (i - 1) ++ i :: List.range' (i + 1) (bks.length - i - 1) := by
    have h1i : 1 + (i - 1) = i := by omega
    have hcount : bks.length - 1 = (bks.length - i) + (i - 1) := by omega
    have hsucc : bks.length - i = (bks.length - i - 1) + 1 := by omega
    rw [hcount, ← List.range'_append_1, h1i, hsucc, List.range'_succ]
    simp
  have hFdec : forward d mode bks =
      foldB d mode (forwardBucket d mode AL i) (List.range' (i + 1) (bks.length - i - 1)) := by
    rw [forward_eq_foldB, hsplit, hAL]
    unfold foldB
    rw [List.foldl_append, List.foldl_cons]
  -- decompose the bucket-i pass
  have hblen : (AL.getD i []).length = (bks.getD i []).length := hALbucket i
  have hbsplit : List.range' 0 (AL.getD i []).length =
      List.range' 0 j ++ j :: List.range' (j + 1) ((bks.getD i []).length - j - 1) := by
    rw [hblen]
    have h0j : 0 + j = j := by omega
    have hcount : (bks.getD i []).length = ((bks.getD i []).length - j) + j := by omega
    have hsucc : (bks.getD i []).length - j = ((bks.getD i []).length - j - 1) + 1 := by
      omega
    rw [hcount, ← List.range'_append_1, h0j, hsucc, List.range'_succ]
    simp
  have hBdec : forwardBucket d mode AL i =
      foldN d mode (forwardNode d mode stJ i j) i
        (List.range' (j + 1) ((bks.getD i []).length - j - 1)) := by
    unfold forwardBucket
    rw [hbsplit, hstJ]
    unfold foldN
    rw [List.foldl_append, List.foldl_cons]
  refine ⟨stJ, hstJlen, hstJbucket, hstJij, ?_, ?_⟩
  · intro b k2 hb
    rw [hFdec, foldB_getNode_ne d mode _ _ b k2 (by
        intro hm
        rw [List.mem_range'] at hm
        obtain ⟨k, hk, he⟩ := hm
        omega),
      hBdec, foldN_getNode_ne d mode i _ _ b k2 (Or.inl (by omega)),
      forwardNode_getNode_ne _ _ _ _ _ _ _ (by rintro ⟨hbi, _⟩; omega)]
  · rw [hFdec, foldB_getNode_ne d mode _ _ i j (by
        intro hm
        rw [List.mem_range'] at hm
        obtain ⟨k, hk, he⟩ := hm
        omega),
      hBdec, foldN_getNode_ne d mode i _ _ i j (Or.inr (by
        intro hm
        rw [List.mem_range'] at hm
        obtain ⟨k, hk, he⟩ := hm
        omega))]

/-- Claim C2: for every mode and every lattice, the forward pass sets the
cost of a node `t = (i, j)` (whose start bucket lies strictly before its own,
as holds for every node `build` produces in a processed bucket) to the
minimum over the predecessors `p` in bucket `t.start` of
`p.cost + connection(p.right_id, t.left_id) + t.weight + additional(p, mode)`
— `satCost` is this 64-bit total saturated at `MAXIMUM_COST`, the cast to the
32-bit store being lossless under the `hwrap` bound — with the first
predecessor attaining the minimum kept as `prev`; a node whose start bucket
is empty gets cost `MAXIMUM_COST` and keeps its (null) predecessor. -/
theorem kagome_c2_forward_viterbi (d : DictCore) (mode : LatticeMode)
    (bks : List (List BNode)) (i j : Nat)
    (h1 : 1 ≤ i) (hi : i < bks.length) (hj : j < (bks.getD i []).length)
    (hs : (getNode bks i j).start < i)
    (hwrap : ∀ k : Nat, k < ((forward d mode bks).getD (getNode bks i j).start []).length →
      -2147483648 ≤ stepTotal d mode
        (getNode (forward d mode bks) (getNode bks i j).start k)
        (getNode (forward d mode bks) i j)) :
    ((forward d mode bks).getD (getNode bks i j).start [] = [] →
      (getNode (forward d mode bks) i j).cost = MAXIMUM_COST ∧
      (getNode (forward d mode bks) i j).prev = (getNode bks i j).prev) ∧
    ((forward d mode bks).getD (getNode bks i j).start [] ≠ [] →
      ∃ k0, k0 < ((forward d mode bks).getD (getNode bks i j).start []).length ∧
        (getNode (forward d mode bks) i j).prev = some ((getNode bks i j).start, k0) ∧
        (getNode (forward d mode bks) i j).cost =
          satCost d mode (getNode (forward d mode bks) (getNode bks i j).start k0)
            (getNode (forward d mode bks) i j) ∧
        (∀ k : Nat, k < ((forward d mode bks).getD (getNode bks i j).start []).length →
          (getNode (forward d mode bks) i j).cost ≤
            satCost d mode (getNode (forward d mode bks) (getNode bks i j).start k)
              (getNode (forward d mode bks) i j)) ∧
        (∀ k : Nat, k < k0 →
          (getNode (forward d mode bks) i j).cost <
            satCost d mode (getNode (forward d mode bks) (getNode bks i j).start k)
              (getNode (forward d mode bks) i j))) := by
  obtain ⟨st, hstlen, hstbucket, hstij, hagree, hnode⟩ :=
    forward_localize d mode bks i j h1 hi hj
  have hi2 : i < st.length := by rw [hstlen]; exact hi
  have hj2 : j < (st.getD i []).length := by rw [hstbucket]; exact hj
  have hs2 : (getNode st i j).start ≠ i := by rw [hstij]; omega
  have hslt2 : (getNode st i j).start < st.length := by
    rw [hstij, hstlen]; omega
  have hstart2 : (getNode st i j).start = (getNode bks i j).start := by rw [hstij]
  have hspec := forwardNode_spec d mode st i j hi2 hj2 hs2 hslt2
  have hplen : ((forward d mode bks).getD (getNode bks i j).start []).length =
      (st.getD (getNode st i j).start []).length := by
    rw [hstart2, forward_bucketLen, hstbucket]
  have hpred : ∀ k : Nat,
      getNode (forward d mode bks) (getNode bks i j).start k =
        getNode st (getNode st i j).start k := by
    intro k
    rw [hstart2, hagree _ k (by omega)]
  constructor
  · intro hempty
    have hz : (st.getD (getNode st i j).start []).length = 0 := by
      rw [← hplen, hempty]
      rfl
    have hset := hspec.1 hz
    rw [hnode, hset, hstij]
    exact ⟨rfl, rfl⟩
  · intro hne
    have hz : 0 < (st.getD (getNode st i j).start []).length := by
      rw [← hplen]
      exact List.length_pos.mpr hne
    obtain ⟨hstat, k0, hk0, hprev, hcost, hmin, hstrict⟩ := hspec.2 hz
    have hstatF : sameStatic (getNode (forward d mode bks) i j) (getNode bks i j) := by
      rw [hnode, ← hstij]
      exact hstat
    have hconv : ∀ k : Nat, k < (st.getD (getNode st i j).start []).length →
        satW d mode (getNode st (getNode st i j).start k) (getNode st i j) =
          satCost d mode (getNode (forward d mode bks) (getNode bks i j).start k)
            (getNode (forward d mode bks) i j) := by
      intro k hk
      rw [← hpred k]
      have hcg : stepTotal d mode
          (getNode (forward d mode bks) (getNode bks i j).start k) (getNode st i j) =
          stepTotal d mode (getNode (forward d mode bks) (getNode bks i j).start k)
            (getNode (forward d mode bks) i j) := by
        apply stepTotal_congr
        exact sameStatic_trans (hstij ▸ sameStatic_refl (getNode st i j))
          (sameStatic_symm hstatF)
      unfold satW satCost
      rw [hcg]
      apply wrap32_eq_self
      · have hb := hwrap k (by omega)
        have : (-2147483648 : Int) ≤ MAXIMUM_COST := by unfold MAXIMUM_COST; omega
        omega
      · exact min_le_right _ _
    refine ⟨k0, by omega, ?_, ?_, ?_, ?_⟩
    · rw [hnode, hprev, hstart2]
    · rw [← hconv k0 hk0, hnode]
      exact hcost
    · intro k hk
      rw [← hconv k (by omega), hnode]
      exact hmin k (by omega)
    · intro k hk
      rw [← hconv k (by omega), hnode]
      exact hstrict k hk

/-- Predecessor node of the C2 witness lattice. -/
def c2P : BNode :=
  { id := 0, position := 0, start := 0, nclass := NodeClass.Dummy, cost := 0,
    leftId := 0, rightId := 0, weight := 0, surface := [], prev := none }

/-- Target node of the C2 witness lattice. -/
def c2T : BNode :=
  { id := 1, position := 0, start := 0, nclass := NodeClass.Known, cost := 0,
    leftId := 0, rightId := 0, weight := 5, surface := [0x61], prev := none }

/-- Witness lattice for C2: one predecessor in bucket 0, one target in
bucket 1. -/
def c2Bks : List (List BNode) := [[c2P], [c2T]]

theorem kagome_c2_witness :
    ((forward trivDict LatticeMode.Normal c2Bks).getD (getNode c2Bks 1 0).start [] = [] →
      (getNode (forward trivDict LatticeMode.Normal c2Bks) 1 0).cost = MAXIMUM_COST ∧
      (getNode (forward trivDict LatticeMode.Normal c2Bks) 1 0).prev =
        (getNode c2Bks 1 0).prev) ∧
    ((forward trivDict LatticeMode.Normal c2Bks).getD (getNode c2Bks 1 0).start [] ≠ [] →
      ∃ k0, k0 < ((forward trivDict LatticeMode.Normal c2Bks).getD
          (getNode c2Bks 1 0).start []).length ∧
        (getNode (forward trivDict LatticeMode.Normal c2Bks) 1 0).prev =
          some ((getNode c2Bks 1 0).start, k0) ∧
        (getNode (forward trivDict LatticeMode.Normal c2Bks) 1 0).cost =
          satCost trivDict LatticeMode.Normal
            (getNode (forward trivDict LatticeMode.Normal c2Bks) (getNode c2Bks 1 0).start k0)
            (getNode (forward trivDict LatticeMode.Normal c2Bks) 1 0) ∧
        (∀ k : Nat, k < ((forward trivDict LatticeMode.Normal c2Bks).getD
            (getNode c2Bks 1 0).start []).length →
          (getNode (forward trivDict LatticeMode.Normal c2Bks) 1 0).cost ≤
            satCost trivDict LatticeMode.Normal
              (getNode (forward trivDict LatticeMode.Normal c2Bks)
                (getNode c2Bks 1 0).start k)
              (getNode (forward trivDict LatticeMode.Normal c2Bks) 1 0)) ∧
        (∀ k : Nat, k < k0 →
          (getNode (forward trivDict LatticeMode.Normal c2Bks) 1 0).cost <
            satCost trivDict LatticeMode.Normal
              (getNode (forward trivDict LatticeMode.Normal c2Bks)
                (getNode c2Bks 1 0).start k)
              (getNode (forward trivDict LatticeMode.Normal c2Bks) 1 0))) :=
  kagome_c2_forward_viterbi trivDict LatticeMode.Normal c2Bks 1 0 (by decide) (by decide)
    (by decide) (by decide)
    (by
      intro k hk
      have hlen : ((forward trivDict LatticeMode.Normal c2Bks).getD
          (getNode c2Bks 1 0).start []).length = 1 := by decide
      rw [hlen] at hk
      have hk0 : k = 0 := by omega
      subst hk0
      decide)

/-! Claim C7 development: byte offsets of character positions in a chunked
input, the bucket invariant maintained by `Lattice::build`, and the
backward-walk telescoping of surfaces. -/

instance : Inhabited UcharC := ⟨⟨[], 0⟩⟩

/-- Byte offset of character position `p` in the serialization of `cs`. -/
def chLen (cs : List UcharC) (p : Nat) : Nat := (chunksBytes (cs.take p)).length

theorem chLen_zero (cs : List UcharC) : chLen cs 0 = 0 := rfl

theorem chLen_add (cs : List UcharC) (p k : Nat) :
    chLen cs (p + k) = chLen cs p + (chunksBytes ((cs.drop p).take k)).length := by
  unfold chLen
  rw [List.take_add, chunksBytes_append, List.length_append]

theorem chLen_top (cs : List UcharC) {p : Nat} (h : cs.length ≤ p) :
    chLen cs p = (chunksBytes cs).length := by
  unfold chLen
  rw [List.take_of_length_le h]

theorem drop_getD (cs : List UcharC) {p : Nat} (hp : p < cs.length) :
    cs.drop p = cs.getD p default :: cs.drop (p + 1) := by
  rw [List.getD_eq_getElem?_getD, List.getElem?_eq_getElem hp]
  exact List.drop_eq_getElem_cons hp

theorem getD_mem (cs : List UcharC) {p : Nat} (hp : p < cs.length) :
    cs.getD p default ∈ cs := by
  rw [List.getD_eq_getElem?_getD, List.getElem?_eq_getElem hp]
  exact List.getElem_mem hp

theorem chunks_take_ne_nil {cs : List UcharC} (hok : ∀ u ∈ cs, UcharOK u)
    {p m : Nat} (hp : p < cs.length) (hm : 1 ≤ m) :
    chunksBytes ((cs.drop p).take m) ≠ [] := by
  obtain ⟨m1, rfl⟩ : ∃ m1, m = m1 + 1 := ⟨m - 1, by omega⟩
  rw [drop_getD cs hp, List.take_succ_cons, chunksBytes_cons]
  have hne := (hok _ (getD_mem cs hp)).ne_nil
  intro hc
  rw [List.append_eq_nil] at hc
  exact hne hc.1

theorem chLen_lt {cs : List UcharC} (hok : ∀ u ∈ cs, UcharOK u) {p q : Nat}
    (hpq : p < q) (hq : q ≤ cs.length) : chLen cs p < chLen cs q := by
  obtain ⟨k, rfl⟩ : ∃ k, q = p + k := ⟨q - p, by omega⟩
  rw [chLen_add]
  have hne := chunks_take_ne_nil hok (p := p) (m := k) (by omega) (by omega)
  have := List.length_pos.mpr hne
  omega

theorem chLen_le (cs : List UcharC) {p q : Nat} (hpq : p ≤ q) :
    chLen cs p ≤ chLen cs q := by
  obtain ⟨k, rfl⟩ : ∃ k, q = p + k := ⟨q - p, by omega⟩
  rw [chLen_add]
  omega

theorem drop_chLen (cs : List UcharC) (p : Nat) :
    (chunksBytes cs).drop (chLen cs p) = chunksBytes (cs.drop p) := by
  have h : chunksBytes cs = chunksBytes (cs.take p) ++ chunksBytes (cs.drop p) := by
    rw [← chunksBytes_append, List.take_append_drop]
  rw [chLen, h, List.drop_left]

theorem slice_chunks (cs : List UcharC) (p m : Nat) :
    slice (chunksBytes cs) (chLen cs p) ((chunksBytes ((cs.drop p).take m)).length) =
      chunksBytes ((cs.drop p).take m) := by
  unfold slice
  rw [drop_chLen]
  have h : chunksBytes (cs.drop p) =
      chunksBytes ((cs.drop p).take m) ++ chunksBytes ((cs.drop p).drop m) := by
    rw [← chunksBytes_append, List.take_append_drop]
  rw [h, List.take_left]

theorem chars_chunks_take {cs : List UcharC} (hok : ∀ u ∈ cs, UcharOK u) {p m : Nat}
    (hm : m ≤ cs.length - p) :
    countUtf8Chars (chunksBytes ((cs.drop p).take m)) = m := by
  have hsub : ∀ u ∈ (cs.drop p).take m, UcharOK u := by
    intro u hu
    exact hok u (List.mem_of_mem_drop (List.mem_of_mem_take hu))
  rw [countUtf8Chars_chunks hsub, List.length_take, List.length_drop]
  omega

theorem u8Next_chunks {cs : List UcharC} (hok : ∀ u ∈ cs, UcharOK u) {p : Nat}
    (hp : p < cs.length) :
    u8Next (chunksBytes (cs.drop p)) =
      some (some (cs.getD p default).cp, (cs.getD p default).bytes.length) := by
  rw [drop_getD cs hp, chunksBytes_cons]
  exact hok _ (getD_mem cs hp) _

theorem chunks_take_extend (cs : List UcharC) {p b : Nat} (hpb : p ≤ b) :
    chunksBytes (cs.take p) ++ chunksBytes ((cs.drop p).take (b - p)) =
      chunksBytes (cs.take b) := by
  rw [← chunksBytes_append]
  congr 1
  rw [← List.take_add]
  congr 1
  omega

theorem chLen_lt_total {cs : List UcharC} {p : Nat}
    (hp : p ≤ cs.length) (hlt : chLen cs p < (chunksBytes cs).length) :
    p < cs.length := by
  by_contra hc
  have : p = cs.length := by omega
  rw [this, chLen_top cs (le_refl _)] at hlt
  omega

/-- Bucket content of `addNode`: the target bucket (when in range) gains one
node carrying the given `start` and `surface` with a null `prev`; every other
bucket is unchanged. -/
theorem addNode_getD (d : DictCore) (bks : List (List BNode)) (pos : Nat) (id : Int)
    (position start : Nat) (ncl : NodeClass) (surf : List Nat) (b : Nat) :
    ((b = (if surf = [] then pos else pos + countUtf8Chars surf) ∧ b < bks.length) →
      ∃ nd : BNode, nd.prev = none ∧ nd.start = start ∧ nd.surface = surf ∧
        (addNode d bks pos id position start ncl surf).getD b [] = bks.getD b [] ++ [nd]) ∧
    (¬(b = (if surf = [] then pos else pos + countUtf8Chars surf) ∧ b < bks.length) →
      (addNode d bks pos id position start ncl surf).getD b [] = bks.getD b []) := by
  simp only [addNode]
  constructor
  · rintro ⟨hb, hlt⟩
    subst hb
    rw [if_pos hlt, getD_set_eq _ _ _ _ hlt]
    exact ⟨_, rfl, rfl, rfl, rfl⟩
  · intro hn
    by_cases hlt : (if surf = [] then pos else pos + countUtf8Chars surf) < bks.length
    · rw [if_pos hlt]
      have hb : b ≠ (if surf = [] then pos else pos + countUtf8Chars surf) := by
        intro he
        exact hn ⟨he, he ▸ hlt⟩
      rw [getD_set_ne _ _ _ _ _ (fun he => hb he.symm)]
    · rw [if_neg hlt]

theorem addNode_nonempty (d : DictCore) (bks : List (List BNode)) (pos : Nat) (id : Int)
    (position start : Nat) (ncl : NodeClass) (surf : List Nat) (b : Nat)
    (h : bks.getD b [] ≠ []) :
    (addNode d bks pos id position start ncl surf).getD b [] ≠ [] := by
  have hc := addNode_getD d bks pos id position start ncl surf b
  by_cases hx : b = (if surf = [] then pos else pos + countUtf8Chars surf) ∧ b < bks.length
  · obtain ⟨nd, _, _, _, he⟩ := hc.1 hx
    rw [he]
    simp
  · rw [hc.2 hx]
    exact h

/-- The BOS node inserted by `Lattice::build`. -/
def bosNode : BNode :=
  { id := -1, position := 0, start := 0, nclass := NodeClass.Dummy, cost := 0,
    leftId := 0, rightId := 0, weight := 0, surface := [], prev := none }

/-- The EOS node inserted by `Lattice::build` on the chunked input `cs`. -/
def eosNode (cs : List UcharC) : BNode :=
  { id := -1, position := (chunksBytes cs).length, start := cs.length,
    nclass := NodeClass.Dummy, cost := 0, leftId := 0, rightId := 0, weight := 0,
    surface := [], prev := none }

/-- Invariant of a node of bucket `b` (`1 ≤ b ≤ cs.length`) during the scan of
`Lattice::build`: null predecessor, start character position strictly before
`b`, a non-empty start bucket, and a surface spanning exactly the characters
`start, …, b-1` of the input. -/
def NodeOK (cs : List UcharC) (bks : List (List BNode)) (b : Nat) (nd : BNode) : Prop :=
  nd.prev = none ∧ nd.start < b ∧ bks.getD nd.start [] ≠ [] ∧
  nd.surface = chunksBytes ((cs.drop nd.start).take (b - nd.start))

/-- Invariant of the bucket array during the scan of `Lattice::build`. -/
def BktInv (cs : List UcharC) (bks : List (List BNode)) : Prop :=
  bks.length = cs.length + 2 ∧
  bks.getD 0 [] = [bosNode] ∧
  bks.getD (cs.length + 1) [] = [eosNode cs] ∧
  ∀ b : Nat, 1 ≤ b → b ≤ cs.length → ∀ nd ∈ bks.getD b [], NodeOK cs bks b nd

theorem nodeOK_mono {cs : List UcharC} {bks bks2 : List (List BNode)} {b : Nat} {nd : BNode}
    (hg : ∀ b2 : Nat, bks.getD b2 [] ≠ [] → bks2.getD b2 [] ≠ [])
    (h : NodeOK cs bks b nd) : NodeOK cs bks2 b nd :=
  ⟨h.1, h.2.1, hg _ h.2.2.1, h.2.2.2⟩

/-- One dictionary/unknown candidate insertion preserves the bucket invariant:
inserting at scan position `p` a node whose surface is the next `m` whole
characters lands it in bucket `p + m` and keeps every clause. -/
theorem addNode_scan_inv (d : DictCore) {cs : List UcharC} (hok : ∀ u ∈ cs, UcharOK u)
    {bks : List (List BNode)} (hinv : BktInv cs bks) {p m : Nat} (id : Int)
    (position : Nat) (ncl : NodeClass)
    (hm1 : 1 ≤ m) (hm2 : m ≤ cs.length - p) (hp : p < cs.length)
    (hpne : bks.getD p [] ≠ []) :
    BktInv cs (addNode d bks p id position p ncl (chunksBytes ((cs.drop p).take m))) ∧
    (∀ b : Nat, bks.getD b [] ≠ [] →
      (addNode d bks p id position p ncl (chunksBytes ((cs.drop p).take m))).getD b [] ≠ []) ∧
    (addNode d bks p id position p ncl (chunksBytes ((cs.drop p).take m))).getD (p + m) [] ≠ [] := by
  obtain ⟨hlen, hbos, heos, hnodes⟩ := hinv
  have hsne : chunksBytes ((cs.drop p).take m) ≠ [] := chunks_take_ne_nil hok hp hm1
  have htp : (if chunksBytes ((cs.drop p).take m) = [] then p
      else p + countUtf8Chars (chunksBytes ((cs.drop p).take m))) = p + m := by
    rw [if_neg hsne, chars_chunks_take hok hm2]
  have hmono : ∀ b : Nat, bks.getD b [] ≠ [] →
      (addNode d bks p id position p ncl (chunksBytes ((cs.drop p).take m))).getD b [] ≠ [] :=
    fun b hb => addNode_nonempty d bks p id position p ncl _ b hb
  have hcases := fun b => addNode_getD d bks p id position p ncl
    (chunksBytes ((cs.drop p).take m)) b
  have hself : ∃ nd : BNode, nd.prev = none ∧ nd.start = p ∧
      nd.surface = chunksBytes ((cs.drop p).take m) ∧
      (addNode d bks p id position p ncl (chunksBytes ((cs.drop p).take m))).getD (p + m) [] =
        bks.getD (p + m) [] ++ [nd] := by
    apply (hcases (p + m)).1
    rw [htp]
    exact ⟨rfl, by omega⟩
  refine ⟨⟨?_, ?_, ?_, ?_⟩, hmono, ?_⟩
  · rw [addNode_length, hlen]
  · rw [(hcases 0).2 (by rw [htp]; rintro ⟨h0, _⟩; omega)]
    exact hbos
  · rw [(hcases (cs.length + 1)).2 (by rw [htp]; rintro ⟨h0, _⟩; omega)]
    exact heos
  · intro b hb1 hb2 nd hnd
    by_cases hb : b = p + m
    · obtain ⟨nd2, hp2, hs2, hsurf2, he2⟩ := hself
      rw [hb, he2, List.mem_append] at hnd
      rcases hnd with hnd | hnd
      · exact nodeOK_mono hmono (hnodes b hb1 hb2 nd (hb ▸ hnd))
      · rw [List.mem_singleton] at hnd
        subst hnd
        refine ⟨hp2, by omega, ?_, ?_⟩
        · rw [hs2]
          exact hmono p hpne
        · rw [hsurf2, hs2, hb]
          have hmm : p + m - p = m := by omega
          rw [hmm]
    · rw [(hcases b).2 (by rw [htp]; rintro ⟨h0, _⟩; exact hb h0)] at hnd
      exact nodeOK_mono hmono (hnodes b hb1 hb2 nd hnd)
  · obtain ⟨nd2, _, _, _, he2⟩ := hself
    rw [he2]
    simp

/-- The dictionary-hit insertion fold of `Lattice::build` preserves the bucket
invariant when every hit spans a whole number of characters of the remaining
input, and leaves the end bucket of every hit non-empty. -/
theorem addHits_inv (d : DictCore) {cs : List UcharC} (hok : ∀ u ∈ cs, UcharOK u)
    (ncl : NodeClass) (p : Nat) (hp : p < cs.length) :
    ∀ (hits : List (Int × Nat)) (bks : List (List BNode)), BktInv cs bks →
      bks.getD p [] ≠ [] →
      (∀ h ∈ hits, ∃ m, 1 ≤ m ∧ m ≤ cs.length - p ∧
        h.2 = (chunksBytes ((cs.drop p).take m)).length) →
      BktInv cs (addHits d bks (chunksBytes cs) p (chLen cs p) ncl hits) ∧
      (∀ b : Nat, bks.getD b [] ≠ [] →
        (addHits d bks (chunksBytes cs) p (chLen cs p) ncl hits).getD b [] ≠ []) ∧
      (∀ h ∈ hits,
        (addHits d bks (chunksBytes cs) p (chLen cs p) ncl hits).getD
          (p + countUtf8Chars (slice (chunksBytes cs) (chLen cs p) h.2)) [] ≠ []) := by
  intro hits
  induction hits with
  | nil =>
    intro bks hinv hpne _
    refine ⟨hinv, fun b hb => hb, ?_⟩
    intro h hm
    exact absurd hm (List.not_mem_nil h)
  | cons a t ih =>
    intro bks hinv hpne hall
    obtain ⟨m, hm1, hm2, hmlen⟩ := hall a (List.mem_cons_self a t)
    have hsurf : slice (chunksBytes cs) (chLen cs p) a.2 =
        chunksBytes ((cs.drop p).take m) := by
      rw [hmlen]
      exact slice_chunks cs p m
    have hstep := addNode_scan_inv d hok hinv a.1 (chLen cs p) ncl hm1 hm2 hp hpne
    have hfold : addHits d bks (chunksBytes cs) p (chLen cs p) ncl (a :: t) =
        addHits d (addNode d bks p a.1 (chLen cs p) p ncl
          (chunksBytes ((cs.drop p).take m))) (chunksBytes cs) p (chLen cs p) ncl t := by
      unfold addHits
      rw [List.foldl_cons, hsurf]
    obtain ⟨hinv1, hmono1, hend1⟩ := hstep
    have ihr := ih _ hinv1 (hmono1 p hpne) (fun h hm => hall h (List.mem_cons_of_mem a hm))
    obtain ⟨hinv2, hmono2, hend2⟩ := ihr
    rw [hfold]
    refine ⟨hinv2, fun b hb => hmono2 b (hmono1 b hb), ?_⟩
    intro h hm
    rcases List.mem_cons.mp hm with hm | hm
    · subst hm
      rw [hsurf, chars_chunks_take hok hm2]
      exact hmono2 _ hend1
    · exact hend2 h hm

/-- The byte-longest tracking fold of `Lattice::build` returns the length pair
of one of the hits when the list is non-empty and every hit is non-trivial. -/
theorem longestHit_mem (input : List Nat) (csb : Nat) (hits : List (Int × Nat))
    (hne : hits ≠ []) (hpos : ∀ h ∈ hits, 1 ≤ h.2) :
    ∃ h2, h2 ∈ hits ∧
      longestHit input csb hits = (h2.2, countUtf8Chars (slice input csb h2.2)) := by
  have aux : ∀ (l : List (Int × Nat)) (acc : Nat × Nat),
      l.foldl (fun acc h => if h.2 > acc.1
        then (h.2, countUtf8Chars (slice input csb h.2)) else acc) acc = acc ∨
      ∃ h2, h2 ∈ l ∧ l.foldl (fun acc h => if h.2 > acc.1
        then (h.2, countUtf8Chars (slice input csb h.2)) else acc) acc =
          (h2.2, countUtf8Chars (slice input csb h2.2)) := by
    intro l
    induction l with
    | nil => intro acc; exact Or.inl rfl
    | cons a t ihl =>
      intro acc
      rw [List.foldl_cons]
      by_cases hgt : a.2 > acc.1
      · rw [if_pos hgt]
        rcases ihl (a.2, countUtf8Chars (slice input csb a.2)) with h | ⟨h2, hm, he⟩
        · exact Or.inr ⟨a, List.mem_cons_self a t, h⟩
        · exact Or.inr ⟨h2, List.mem_cons_of_mem a hm, he⟩
      · rw [if_neg hgt]
        rcases ihl acc with h | ⟨h2, hm, he⟩
        · exact Or.inl h
        · exact Or.inr ⟨h2, List.mem_cons_of_mem a hm, he⟩
  cases hits with
  | nil => exact absurd rfl hne
  | cons a t =>
    have ha : 1 ≤ a.2 := hpos a (List.mem_cons_self a t)
    unfold longestHit
    rw [List.foldl_cons, if_pos (by omega : a.2 > (0, 0).1)]
    rcases aux t (a.2, countUtf8Chars (slice input csb a.2)) with h | ⟨h2, hm, he⟩
    · exact ⟨a, List.mem_cons_self a t, h⟩
    · exact ⟨h2, List.mem_cons_of_mem a hm, he⟩

/-- The same-category grouping loop of `Lattice::build`, entered at character
boundary `a` with `a - p` characters already accepted, stops at some character
boundary `q`: its final `end_byte`, run length and truncation boundary are the
byte offsets and count of whole characters `p, …, q-1`. -/
theorem groupRun_spec (d : DictCore) {cs : List UcharC} (hok : ∀ u ∈ cs, UcharOK u)
    (cat : Nat) :
    ∀ (fuel p a : Nat), p < a → a ≤ cs.length →
      ∃ q, p < q ∧ q ≤ cs.length ∧
        groupRun d (chunksBytes cs) cat fuel (chLen cs a) (chLen cs a) (a - p)
          (chLen cs (a - 1)) = (chLen cs q, q - p, chLen cs (q - 1)) := by
  intro fuel
  induction fuel with
  | zero => intro p a h1 h2; exact ⟨a, h1, h2, rfl⟩
  | succ f ih =>
    intro p a h1 h2
    by_cases hcond : chLen cs a < (chunksBytes cs).length ∧ a - p < 1024
    · have ha : a < cs.length := chLen_lt_total h2 hcond.1
      have hnext : u8Next ((chunksBytes cs).drop (chLen cs a)) =
          some (some (cs.getD a default).cp, (cs.getD a default).bytes.length) := by
        rw [drop_chLen]
        exact u8Next_chunks hok ha
      simp only [groupRun]
      rw [if_pos hcond]
      simp only [hnext]
      by_cases hcat : d.charCategory (cs.getD a default).cp = cat
      · rw [if_pos hcat]
        have hstep : chLen cs a + (cs.getD a default).bytes.length = chLen cs (a + 1) := by
          rw [chLen_add cs a 1, drop_getD cs ha, List.take_succ_cons, List.take_zero,
            chunksBytes_cons, chunksBytes_nil, List.append_nil]
        rw [hstep]
        have h3 : a - p + 1 = (a + 1) - p := by omega
        have h4 : chLen cs a = chLen cs ((a + 1) - 1) := by norm_num
        rw [h3, h4]
        exact ih p (a + 1) (by omega) (by omega)
      · rw [if_neg hcat]
        exact ⟨a, h1, h2, rfl⟩
    · simp only [groupRun]
      rw [if_neg hcond]
      exact ⟨a, h1, h2, rfl⟩

/-- Generic fold preservation: if one iteration keeps the bucket invariant,
only grows buckets, and leaves bucket `q` non-empty, so does a non-empty fold. -/
theorem foldU_aux (cs : List UcharC) (p q : Nat)
    (f : List (List BNode) → Nat → List (List BNode))
    (hf : ∀ (bks2 : List (List BNode)) (i : Nat), BktInv cs bks2 → bks2.getD p [] ≠ [] →
      BktInv cs (f bks2 i) ∧ (∀ b : Nat, bks2.getD b [] ≠ [] → (f bks2 i).getD b [] ≠ []) ∧
      (f bks2 i).getD q [] ≠ []) :
    ∀ (l : List Nat) (bks2 : List (List BNode)), BktInv cs bks2 → bks2.getD p [] ≠ [] →
      BktInv cs (l.foldl f bks2) ∧
      (∀ b : Nat, bks2.getD b [] ≠ [] → (l.foldl f bks2).getD b [] ≠ []) ∧
      (l ≠ [] → (l.foldl f bks2).getD q [] ≠ []) := by
  intro l
  induction l with
  | nil =>
    intro bks2 hinv hpne
    exact ⟨hinv, fun b hb => hb, fun hc => absurd rfl hc⟩
  | cons a t ih =>
    intro bks2 hinv hpne
    rw [List.foldl_cons]
    obtain ⟨hinv1, hmono1, hq1⟩ := hf bks2 a hinv hpne
    obtain ⟨hinv2, hmono2, _⟩ := ih _ hinv1 (hmono1 p hpne)
    exact ⟨hinv2, fun b hb => hmono2 b (hmono1 b hb), fun _ => hmono2 q hq1⟩

/-- The unknown-word insertion block of `Lattice::build` preserves the bucket
invariant and leaves bucket `q` (the end of the grouped run) non-empty; the
per-category duplicate counts are non-negative in a well-formed dictionary, so
at least one candidate is always inserted. -/
theorem addUnknownNodes_inv (d : DictCore) {cs : List UcharC} (hok : ∀ u ∈ cs, UcharOK u)
    (hdup : ∀ c : Nat, 0 ≤ d.unkDup c) {bks : List (List BNode)} (hinv : BktInv cs bks)
    {p q : Nat} (cat : Nat) (hpq : p < q) (hq : q ≤ cs.length)
    (hpne : bks.getD p [] ≠ []) :
    BktInv cs (addUnknownNodes d bks (chunksBytes cs) p (chLen cs p) (chLen cs q)
      (chLen cs (q - 1)) (q - p) cat) ∧
    (∀ b : Nat, bks.getD b [] ≠ [] →
      (addUnknownNodes d bks (chunksBytes cs) p (chLen cs p) (chLen cs q)
        (chLen cs (q - 1)) (q - p) cat).getD b [] ≠ []) ∧
    (addUnknownNodes d bks (chunksBytes cs) p (chLen cs p) (chLen cs q)
      (chLen cs (q - 1)) (q - p) cat).getD q [] ≠ [] := by
  have hp : p < cs.length := by omega
  have hfulllen : chLen cs q - chLen cs p =
      (chunksBytes ((cs.drop p).take (q - p))).length := by
    have h := chLen_add cs p (q - p)
    rw [show p + (q - p) = q by omega] at h
    omega
  have hfull : slice (chunksBytes cs) (chLen cs p) (chLen cs q - chLen cs p) =
      chunksBytes ((cs.drop p).take (q - p)) := by
    rw [hfulllen]
    exact slice_chunks cs p (q - p)
  have hstep : ∀ (bks2 : List (List BNode)) (i : Int), BktInv cs bks2 →
      bks2.getD p [] ≠ [] →
      BktInv cs (addNode d bks2 p i (chLen cs p) p NodeClass.Unknown
        (slice (chunksBytes cs) (chLen cs p) (chLen cs q - chLen cs p))) ∧
      (∀ b : Nat, bks2.getD b [] ≠ [] →
        (addNode d bks2 p i (chLen cs p) p NodeClass.Unknown
          (slice (chunksBytes cs) (chLen cs p) (chLen cs q - chLen cs p))).getD b [] ≠ []) ∧
      (addNode d bks2 p i (chLen cs p) p NodeClass.Unknown
        (slice (chunksBytes cs) (chLen cs p) (chLen cs q - chLen cs p))).getD q [] ≠ [] := by
    intro bks2 i hinv2 hpne2
    rw [hfull]
    have h := addNode_scan_inv d hok hinv2 i (chLen cs p) NodeClass.Unknown
      (by omega : 1 ≤ q - p) (by omega : q - p ≤ cs.length - p) hp hpne2
    rw [show p + (q - p) = q by omega] at h
    exact h
  have htstep : ∀ (bks2 : List (List BNode)) (i : Int), BktInv cs bks2 →
      bks2.getD p [] ≠ [] → q - p > 1 →
      BktInv cs (addNode d bks2 p i (chLen cs p) p NodeClass.Unknown
        (slice (chunksBytes cs) (chLen cs p) (chLen cs (q - 1) - chLen cs p))) ∧
      (∀ b : Nat, bks2.getD b [] ≠ [] →
        (addNode d bks2 p i (chLen cs p) p NodeClass.Unknown
          (slice (chunksBytes cs) (chLen cs p)
            (chLen cs (q - 1) - chLen cs p))).getD b [] ≠ []) := by
    intro bks2 i hinv2 hpne2 hgt
    have htlen : chLen cs (q - 1) - chLen cs p =
        (chunksBytes ((cs.drop p).take (q - 1 - p))).length := by
      have h := chLen_add cs p (q - 1 - p)
      rw [show p + (q - 1 - p) = q - 1 by omega] at h
      omega
    have htr : slice (chunksBytes cs) (chLen cs p) (chLen cs (q - 1) - chLen cs p) =
        chunksBytes ((cs.drop p).take (q - 1 - p)) := by
      rw [htlen]
      exact slice_chunks cs p (q - 1 - p)
    rw [htr]
    have h := addNode_scan_inv d hok hinv2 i (chLen cs p) NodeClass.Unknown
      (by omega : 1 ≤ q - 1 - p) (by omega : q - 1 - p ≤ cs.length - p) hp hpne2
    exact ⟨h.1, h.2.1⟩
  by_cases hcat : cat < d.unkIndexSize
  · simp only [addUnknownNodes]
    rw [if_pos hcat]
    have hiter : ∀ (bks2 : List (List BNode)) (i : Nat), BktInv cs bks2 →
        bks2.getD p [] ≠ [] →
        BktInv cs ((fun bks3 (i2 : Nat) =>
          addNode d (if q - p > 1 then
              addNode d bks3 p (d.unkIndex cat + (i2 : Int)) (chLen cs p) p NodeClass.Unknown
                (slice (chunksBytes cs) (chLen cs p) (chLen cs (q - 1) - chLen cs p))
            else bks3) p (d.unkIndex cat + (i2 : Int)) (chLen cs p) p NodeClass.Unknown
            (slice (chunksBytes cs) (chLen cs p) (chLen cs q - chLen cs p))) bks2 i) ∧
        (∀ b : Nat, bks2.getD b [] ≠ [] → ((fun bks3 (i2 : Nat) =>
          addNode d (if q - p > 1 then
              addNode d bks3 p (d.unkIndex cat + (i2 : Int)) (chLen cs p) p NodeClass.Unknown
                (slice (chunksBytes cs) (chLen cs p) (chLen cs (q - 1) - chLen cs p))
            else bks3) p (d.unkIndex cat + (i2 : Int)) (chLen cs p) p NodeClass.Unknown
            (slice (chunksBytes cs) (chLen cs p) (chLen cs q - chLen cs p))) bks2 i).getD
              b [] ≠ []) ∧
        ((fun bks3 (i2 : Nat) =>
          addNode d (if q - p > 1 then
              addNode d bks3 p (d.unkIndex cat + (i2 : Int)) (chLen cs p) p NodeClass.Unknown
                (slice (chunksBytes cs) (chLen cs p) (chLen cs (q - 1) - chLen cs p))
            else bks3) p (d.unkIndex cat + (i2 : Int)) (chLen cs p) p NodeClass.Unknown
            (slice (chunksBytes cs) (chLen cs p) (chLen cs q - chLen cs p))) bks2 i).getD
              q [] ≠ [] := by
      intro bks2 i hinv2 hpne2
      by_cases hgt : q - p > 1
      · simp only [if_pos hgt]
        obtain ⟨hinv3, hmono3⟩ := htstep bks2 (d.unkIndex cat + (i : Int)) hinv2 hpne2 hgt
        obtain ⟨hinv4, hmono4, hq4⟩ :=
          hstep _ (d.unkIndex cat + (i : Int)) hinv3 (hmono3 p hpne2)
        exact ⟨hinv4, fun b hb => hmono4 b (hmono3 b hb), hq4⟩
      · simp only [if_neg hgt]
        exact hstep bks2 (d.unkIndex cat + (i : Int)) hinv2 hpne2
    have hrange : List.range (if cat < d.unkDupSize then d.unkDup cat + 1 else 1).toNat ≠
        [] := by
      rw [ne_eq, List.range_eq_nil]
      split_ifs with h
      · have := hdup cat
        omega
      · decide
    obtain ⟨hinv5, hmono5, hq5⟩ := foldU_aux cs p q _ hiter
      (List.range (if cat < d.unkDupSize then d.unkDup cat + 1 else 1).toNat) bks hinv hpne
    exact ⟨hinv5, hmono5, hq5 hrange⟩
  · simp only [addUnknownNodes]
    rw [if_neg hcat]
    exact hstep bks (-2) hinv hpne

theorem chLen_succ (cs : List UcharC) {p : Nat} (hp : p < cs.length) :
    chLen cs (p + 1) = chLen cs p + (cs.getD p default).bytes.length := by
  rw [chLen_add cs p 1, drop_getD cs hp, List.take_succ_cons, List.take_zero,
    chunksBytes_cons, chunksBytes_nil, List.append_nil]

/-- Bucket content of a BOS/EOS insertion (`add_node` with class Dummy and
empty surface): the morph fields are pool defaults. -/
theorem addNode_dummy_getD (d : DictCore) (bks : List (List BNode)) (pos : Nat) (id : Int)
    (position start : Nat) (b : Nat) (hlt : pos < bks.length) :
    (addNode d bks pos id position start NodeClass.Dummy []).getD b [] =
      if b = pos then bks.getD b [] ++
        [{ id := id, position := position, start := start, nclass := NodeClass.Dummy,
           cost := 0, leftId := 0, rightId := 0, weight := 0, surface := [],
           prev := none }]
      else bks.getD b [] := by
  simp only [addNode, if_true, show (default : Morph) = ⟨0, 0, 0⟩ from rfl]
  rw [if_pos hlt]
  by_cases hb : b = pos
  · subst hb
    rw [if_pos rfl, getD_set_eq _ _ _ _ hlt]
  · rw [if_neg hb, getD_set_ne _ _ _ _ _ (fun he => hb he.symm)]

/-- Invariant of the scan state of `Lattice::build`: the buckets satisfy
`BktInv`, the byte position is the byte offset of the character position, and
the bucket at the current character position is non-empty. -/
def ScanInv (cs : List UcharC) (st : BuildSt) : Prop :=
  BktInv cs st.buckets ∧ st.charPos ≤ cs.length ∧ st.bytePos = chLen cs st.charPos ∧
  st.buckets.getD st.charPos [] ≠ []

/-- One iteration of the scan loop of `Lattice::build` (system dictionary or
unknown words; no user dictionary) preserves the scan invariant and strictly
advances the byte position. -/
theorem buildStep_inv (d : DictCore) {cs : List UcharC} (hok : ∀ u ∈ cs, UcharOK u)
    (hsys : ∀ suffix : List UcharC, ∀ h ∈ d.sysSearch (chunksBytes suffix),
      ∃ m, 1 ≤ m ∧ m ≤ suffix.length ∧ h.2 = (chunksBytes (suffix.take m)).length)
    (hdup : ∀ c : Nat, 0 ≤ d.unkDup c)
    (st : BuildSt) (hscan : ScanInv cs st) (hlt : st.bytePos < (chunksBytes cs).length) :
    ScanInv cs (buildStep d none (chunksBytes cs) st) ∧
    st.bytePos < (buildStep d none (chunksBytes cs) st).bytePos := by
  obtain ⟨hinv, hple, hbyte, hpne⟩ := hscan
  have hp : st.charPos < cs.length := chLen_lt_total hple (hbyte ▸ hlt)
  have hdropeq : (chunksBytes cs).drop st.bytePos = chunksBytes (cs.drop st.charPos) := by
    rw [hbyte, drop_chLen]
  have hnext : u8Next ((chunksBytes cs).drop st.bytePos) =
      some (some (cs.getD st.charPos default).cp,
        (cs.getD st.charPos default).bytes.length) := by
    rw [hdropeq]; exact u8Next_chunks hok hp
  simp only [buildStep, hnext]
  rw [if_neg (show ¬(([] : List (Int × Nat)) ≠ []) from fun h => h rfl)]
  rw [hdropeq, hbyte]
  by_cases hsh : d.sysSearch (chunksBytes (cs.drop st.charPos)) = []
  · -- no dictionary hits: unknown-word path
    rw [if_neg (not_not_intro hsh)]
    have hsucc : chLen cs st.charPos + (cs.getD st.charPos default).bytes.length =
        chLen cs (st.charPos + 1) := (chLen_succ cs hp).symm
    have hg : ∃ q, st.charPos < q ∧ q ≤ cs.length ∧
        (if shouldGroup d (d.charCategory (cs.getD st.charPos default).cp) then
          groupRun d (chunksBytes cs) (d.charCategory (cs.getD st.charPos default).cp)
            (chunksBytes cs).length
            (chLen cs st.charPos + (cs.getD st.charPos default).bytes.length)
            (chLen cs st.charPos + (cs.getD st.charPos default).bytes.length) 1
            (chLen cs st.charPos)
        else (chLen cs st.charPos + (cs.getD st.charPos default).bytes.length, 1,
          chLen cs st.charPos)) = (chLen cs q, q - st.charPos, chLen cs (q - 1)) := by
      by_cases hgr : shouldGroup d (d.charCategory (cs.getD st.charPos default).cp) = true
      · rw [if_pos hgr]
        obtain ⟨q, hq1, hq2, he⟩ := groupRun_spec d hok
          (d.charCategory (cs.getD st.charPos default).cp) (chunksBytes cs).length
          st.charPos (st.charPos + 1) (by omega) (by omega)
        rw [show st.charPos + 1 - st.charPos = 1 by omega,
          show st.charPos + 1 - 1 = st.charPos by omega, ← hsucc] at he
        exact ⟨q, hq1, hq2, he⟩
      · rw [if_neg hgr]
        refine ⟨st.charPos + 1, by omega, by omega, ?_⟩
        rw [hsucc, show st.charPos + 1 - st.charPos = 1 by omega,
          show st.charPos + 1 - 1 = st.charPos by omega]
    obtain ⟨q, hq1, hq2, hge⟩ := hg
    rw [hge]
    obtain ⟨hinv2, _, hq2ne⟩ := addUnknownNodes_inv d hok hdup hinv
      (d.charCategory (cs.getD st.charPos default).cp) hq1 hq2 hpne
    refine ⟨⟨hinv2, ?_, ?_, ?_⟩, ?_⟩
    · show st.charPos + (q - st.charPos) ≤ cs.length
      omega
    · show chLen cs q = chLen cs (st.charPos + (q - st.charPos))
      rw [show st.charPos + (q - st.charPos) = q by omega]
    · show (addUnknownNodes d st.buckets (chunksBytes cs) st.charPos (chLen cs st.charPos)
        (chLen cs q) (chLen cs (q - 1)) (q - st.charPos)
        (d.charCategory (cs.getD st.charPos default).cp)).getD
          (st.charPos + (q - st.charPos)) [] ≠ []
      rw [show st.charPos + (q - st.charPos) = q by omega]
      exact hq2ne
    · show chLen cs st.charPos < chLen cs q
      exact chLen_lt hok hq1 hq2
  · -- dictionary hits
    rw [if_pos hsh]
    have hhits : ∀ h ∈ d.sysSearch (chunksBytes (cs.drop st.charPos)),
        ∃ m, 1 ≤ m ∧ m ≤ cs.length - st.charPos ∧
          h.2 = (chunksBytes ((cs.drop st.charPos).take m)).length := by
      intro h hm
      obtain ⟨m, hm1, hm2, hm3⟩ := hsys (cs.drop st.charPos) h hm
      rw [List.length_drop] at hm2
      exact ⟨m, hm1, hm2, hm3⟩
    obtain ⟨hinv2, _, hend2⟩ := addHits_inv d hok NodeClass.Known st.charPos hp
      (d.sysSearch (chunksBytes (cs.drop st.charPos))) st.buckets hinv hpne hhits
    have hpos : ∀ h ∈ d.sysSearch (chunksBytes (cs.drop st.charPos)), 1 ≤ h.2 := by
      intro h hm
      obtain ⟨m, hm1, _, hm3⟩ := hhits h hm
      rw [hm3]
      exact List.length_pos.mpr (chunks_take_ne_nil hok hp hm1)
    obtain ⟨h2, hmem2, hlm⟩ := longestHit_mem (chunksBytes cs) (chLen cs st.charPos)
      (d.sysSearch (chunksBytes (cs.drop st.charPos))) hsh hpos
    obtain ⟨m2, hm21, hm22, hm23⟩ := hhits h2 hmem2
    have hchars : countUtf8Chars (slice (chunksBytes cs) (chLen cs st.charPos) h2.2) =
        m2 := by
      rw [hm23, slice_chunks, chars_chunks_take hok hm22]
    rw [hlm]
    refine ⟨⟨hinv2, ?_, ?_, ?_⟩, ?_⟩
    · show st.charPos + countUtf8Chars (slice (chunksBytes cs) (chLen cs st.charPos) h2.2) ≤
        cs.length
      rw [hchars]
      omega
    · show chLen cs st.charPos + h2.2 =
        chLen cs (st.charPos +
          countUtf8Chars (slice (chunksBytes cs) (chLen cs st.charPos) h2.2))
      rw [hchars, chLen_add cs st.charPos m2, hm23]
    · show (addHits d st.buckets (chunksBytes cs) st.charPos (chLen cs st.charPos)
        NodeClass.Known (d.sysSearch (chunksBytes (cs.drop st.charPos)))).getD
          (st.charPos +
            countUtf8Chars (slice (chunksBytes cs) (chLen cs st.charPos) h2.2)) [] ≠ []
      exact hend2 h2 hmem2
    · show chLen cs st.charPos < chLen cs st.charPos + h2.2
      rw [hm23]
      have := List.length_pos.mpr (chunks_take_ne_nil hok hp hm21)
      omega

/-- The scan loop preserves the invariant and, given enough fuel (each
iteration advances at least one byte), terminates with the byte position at
the end of the input. -/
theorem buildLoop_inv (d : DictCore) {cs : List UcharC} (hok : ∀ u ∈ cs, UcharOK u)
    (hsys : ∀ suffix : List UcharC, ∀ h ∈ d.sysSearch (chunksBytes suffix),
      ∃ m, 1 ≤ m ∧ m ≤ suffix.length ∧ h.2 = (chunksBytes (suffix.take m)).length)
    (hdup : ∀ c : Nat, 0 ≤ d.unkDup c) :
    ∀ (fuel : Nat) (st : BuildSt), ScanInv cs st →
      (chunksBytes cs).length ≤ st.bytePos + fuel →
      ScanInv cs (buildLoop d none (chunksBytes cs) fuel st) ∧
      (chunksBytes cs).length ≤ (buildLoop d none (chunksBytes cs) fuel st).bytePos := by
  intro fuel
  induction fuel with
  | zero =>
    intro st h1 h2
    simp only [buildLoop]
    exact ⟨h1, by omega⟩
  | succ f ih =>
    intro st h1 h2
    simp only [buildLoop]
    by_cases hlt : st.bytePos < (chunksBytes cs).length
    · rw [if_pos hlt]
      obtain ⟨hs2, hadv⟩ := buildStep_inv d hok hsys hdup st h1 hlt
      exact ih _ hs2 (by omega)
    · rw [if_neg hlt]
      exact ⟨h1, by omega⟩

/-- `Lattice::build` establishes the bucket invariant, with a non-empty bucket
at the final character position. -/
theorem build_inv (d : DictCore) {cs : List UcharC} (hok : ∀ u ∈ cs, UcharOK u)
    (hsys : ∀ suffix : List UcharC, ∀ h ∈ d.sysSearch (chunksBytes suffix),
      ∃ m, 1 ≤ m ∧ m ≤ suffix.length ∧ h.2 = (chunksBytes (suffix.take m)).length)
    (hdup : ∀ c : Nat, 0 ≤ d.unkDup c) :
    BktInv cs (build d none (chunksBytes cs)) ∧
    (build d none (chunksBytes cs)).getD cs.length [] ≠ [] := by
  have hcc : countUtf8Chars (chunksBytes cs) = cs.length := countUtf8Chars_chunks hok
  have hrep : ∀ b : Nat, (List.replicate (cs.length + 2) ([] : List BNode)).getD b [] = [] := by
    intro b
    rw [List.getD_eq_getElem?_getD, List.getElem?_replicate]
    split_ifs <;> rfl
  have hreplen : (List.replicate (cs.length + 2) ([] : List BNode)).length = cs.length + 2 :=
    List.length_replicate _ _
  have hb1 := fun b => addNode_dummy_getD d (List.replicate (cs.length + 2) []) 0 (-1) 0 0 b
    (by rw [hreplen]; omega)
  have hb1len : (addNode d (List.replicate (cs.length + 2) []) 0 (-1) 0 0
      NodeClass.Dummy []).length = cs.length + 2 := by
    rw [addNode_length, hreplen]
  have hb2 := fun b => addNode_dummy_getD d
    (addNode d (List.replicate (cs.length + 2) []) 0 (-1) 0 0 NodeClass.Dummy [])
    (cs.length + 1) (-1) (chunksBytes cs).length cs.length b (by rw [hb1len]; omega)
  have hB0 : (addNode d (addNode d (List.replicate (cs.length + 2) []) 0 (-1) 0 0
      NodeClass.Dummy []) (cs.length + 1) (-1) (chunksBytes cs).length cs.length
      NodeClass.Dummy []).getD 0 [] = [bosNode] := by
    rw [hb2 0, if_neg (by omega), hb1 0, if_pos rfl, hrep 0]
    rfl
  have hBeos : (addNode d (addNode d (List.replicate (cs.length + 2) []) 0 (-1) 0 0
      NodeClass.Dummy []) (cs.length + 1) (-1) (chunksBytes cs).length cs.length
      NodeClass.Dummy []).getD (cs.length + 1) [] = [eosNode cs] := by
    rw [hb2 (cs.length + 1), if_pos rfl, hb1 (cs.length + 1), if_neg (by omega),
      hrep (cs.length + 1)]
    rfl
  have hBmid : ∀ b : Nat, 1 ≤ b → b ≤ cs.length →
      (addNode d (addNode d (List.replicate (cs.length + 2) []) 0 (-1) 0 0
        NodeClass.Dummy []) (cs.length + 1) (-1) (chunksBytes cs).length cs.length
        NodeClass.Dummy []).getD b [] = [] := by
    intro b hb1' hb2'
    rw [hb2 b, if_neg (by omega), hb1 b, if_neg (by omega), hrep b]
  have hinit : ScanInv cs (⟨addNode d (addNode d
      (List.replicate (cs.length + 2) []) 0 (-1) 0 0 NodeClass.Dummy [])
      (cs.length + 1) (-1) (chunksBytes cs).length cs.length NodeClass.Dummy [],
      0, 0⟩ : BuildSt) := by
    refine ⟨⟨?_, hB0, hBeos, ?_⟩, Nat.zero_le _, rfl, ?_⟩
    · rw [addNode_length, hb1len]
    · intro b hx1 hx2 nd hnd
      rw [hBmid b hx1 hx2] at hnd
      exact absurd hnd (List.not_mem_nil nd)
    · show (addNode d (addNode d (List.replicate (cs.length + 2) []) 0 (-1) 0 0
        NodeClass.Dummy []) (cs.length + 1) (-1) (chunksBytes cs).length cs.length
        NodeClass.Dummy []).getD 0 [] ≠ []
      rw [hB0]
      simp
  have hloop := buildLoop_inv d hok hsys hdup ((chunksBytes cs).length + 1) _ hinit
    (by omega)
  obtain ⟨⟨hinv2, hple2, hbyte2, hpne2⟩, hdone⟩ := hloop
  have hcp : (buildLoop d none (chunksBytes cs) ((chunksBytes cs).length + 1)
      (⟨addNode d (addNode d (List.replicate (cs.length + 2) []) 0 (-1) 0 0
          NodeClass.Dummy []) (cs.length + 1) (-1) (chunksBytes cs).length cs.length
          NodeClass.Dummy [], 0, 0⟩ : BuildSt)).charPos = cs.length := by
    by_contra hc
    have hlt2 : (buildLoop d none (chunksBytes cs) ((chunksBytes cs).length + 1)
        (⟨addNode d (addNode d (List.replicate (cs.length + 2) []) 0 (-1) 0 0
            NodeClass.Dummy []) (cs.length + 1) (-1) (chunksBytes cs).length cs.length
            NodeClass.Dummy [], 0, 0⟩ : BuildSt)).charPos < cs.length := by
      omega
    have := chLen_lt hok hlt2 (le_refl cs.length)
    rw [chLen_top cs (le_refl _)] at this
    omega
  have hbuild : build d none (chunksBytes cs) =
      (buildLoop d none (chunksBytes cs) ((chunksBytes cs).length + 1)
        (⟨addNode d (addNode d (List.replicate (cs.length + 2) []) 0 (-1) 0 0
            NodeClass.Dummy []) (cs.length + 1) (-1) (chunksBytes cs).length cs.length
            NodeClass.Dummy [], 0, 0⟩ : BuildSt)).buckets := by
    simp only [build, hcc]
  rw [hbuild]
  rw [hcp] at hpne2
  exact ⟨hinv2, hpne2⟩

theorem forward_length (d : DictCore) (mode : LatticeMode) (bks : List (List BNode)) :
    (forward d mode bks).length = bks.length := by
  rw [forward_eq_foldB]
  exact foldB_length d mode _ bks

theorem forward_bucket0 (d : DictCore) (mode : LatticeMode) (bks : List (List BNode))
    (k : Nat) : getNode (forward d mode bks) 0 k = getNode bks 0 k := by
  rw [forward_eq_foldB]
  apply foldB_getNode_ne
  intro hm
  rw [List.mem_range'] at hm
  obtain ⟨t, ht, he⟩ := hm
  omega

/-- The forward pass keeps the static fields of a node whose start bucket
precedes its own, and assigns it a predecessor in that bucket whenever the
bucket is non-empty. -/
theorem forward_keep_prev (d : DictCore) (mode : LatticeMode) (bks : List (List BNode))
    (i j : Nat) (h1 : 1 ≤ i) (hi : i < bks.length) (hj : j < (bks.getD i []).length)
    (hs : (getNode bks i j).start < i)
    (hne : bks.getD (getNode bks i j).start [] ≠ []) :
    sameStatic (getNode (forward d mode bks) i j) (getNode bks i j) ∧
    ∃ k, k < (bks.getD (getNode bks i j).start []).length ∧
      (getNode (forward d mode bks) i j).prev = some ((getNode bks i j).start, k) := by
  obtain ⟨st, hstlen, hstbucket, hstij, hagree, hnode⟩ :=
    forward_localize d mode bks i j h1 hi hj
  have hi2 : i < st.length := by rw [hstlen]; exact hi
  have hj2 : j < (st.getD i []).length := by rw [hstbucket]; exact hj
  have hs2 : (getNode st i j).start ≠ i := by rw [hstij]; omega
  have hslt2 : (getNode st i j).start < st.length := by rw [hstij, hstlen]; omega
  have hspec := forwardNode_spec d mode st i j hi2 hj2 hs2 hslt2
  have hz : 0 < (st.getD (getNode st i j).start []).length := by
    rw [hstij, hstbucket]
    exact List.length_pos.mpr hne
  obtain ⟨hstat, k0, hk0, hprev, _⟩ := hspec.2 hz
  rw [hstij] at hstat hprev
  rw [hstij, hstbucket] at hk0
  constructor
  · rw [hnode]
    exact hstat
  · refine ⟨k0, hk0, ?_⟩
    rw [hnode]
    exact hprev

/-- Node-count prefix sums of a bucket array, the fuel measure of the
backward walk. -/
def totalUpTo (bks : List (List BNode)) (b : Nat) : Nat :=
  ((bks.take (b + 1)).map List.length).sum

theorem totalNodes_eq (bks : List (List BNode)) :
    totalNodes bks = (bks.map List.length).sum := by
  have aux : ∀ (l : List (List BNode)) (a : Nat),
      l.foldl (fun a2 l2 => a2 + l2.length) a = a + (l.map List.length).sum := by
    intro l
    induction l with
    | nil => intro a; simp
    | cons x t ihl =>
      intro a
      rw [List.foldl_cons, ihl]
      simp
      omega
  have h := aux bks 0
  unfold totalNodes
  rw [h]
  omega

theorem totalUpTo_full (bks : List (List BNode)) {b : Nat} (h : bks.length ≤ b + 1) :
    totalUpTo bks b = totalNodes bks := by
  rw [totalNodes_eq]
  unfold totalUpTo
  rw [List.take_of_length_le h]

theorem totalUpTo_lt (bks : List (List BNode)) {s b : Nat} (hsb : s < b)
    (hb : b < bks.length) :
    totalUpTo bks s + (bks.getD b []).length ≤ totalUpTo bks b := by
  unfold totalUpTo
  have hsplit : bks.take (b + 1) =
      bks.take (s + 1) ++ (bks.drop (s + 1)).take (b - s) := by
    rw [← List.take_add]
    congr 1
    omega
  rw [hsplit, List.map_append, List.sum_append]
  have hidx : b - s - 1 < (bks.drop (s + 1)).length := by
    rw [List.length_drop]
    omega
  have hsucc : b - s = (b - s - 1) + 1 := by omega
  have htake : (bks.drop (s + 1)).take (b - s) =
      (bks.drop (s + 1)).take (b - s - 1) ++ ((bks.drop (s + 1))[b - s - 1]?).toList := by
    rw [hsucc]
    exact List.take_succ
  have hget : (bks.drop (s + 1))[b - s - 1]? = some (bks.getD b []) := by
    rw [List.getElem?_drop]
    rw [show s + 1 + (b - s - 1) = b by omega]
    rw [List.getElem?_eq_getElem hb]
    rw [List.getD_eq_getElem?_getD, List.getElem?_eq_getElem hb]
    rfl
  rw [htake, hget, List.map_append, List.sum_append]
  simp

theorem backwardAux_none (mode : LatticeMode) (bks : List (List BNode)) (fuel : Nat)
    (acc : List BNode) : backwardAux mode bks fuel none acc = acc := by
  cases fuel <;> rfl

theorem getD_mem_of_lt {α : Type} (l : List α) (j : Nat) (dd : α) (h : j < l.length) :
    l.getD j dd ∈ l := by
  rw [List.getD_eq_getElem?_getD, List.getElem?_eq_getElem h]
  simp only [Option.getD_some]
  exact List.getElem_mem h

/-- The Normal-mode backward walk from any node of bucket `b` produces the
node itself followed by a best path back to BOS whose surfaces, read in
forward order, spell exactly the first `min b cs.length` characters of the
input. -/
theorem backward_walk (cs : List UcharC) (F B : List (List BNode))
    (hFlen : F.length = cs.length + 2)
    (hblen : ∀ b : Nat, (F.getD b []).length = (B.getD b []).length)
    (hinv : BktInv cs B) (hlast : B.getD cs.length [] ≠ [])
    (hbos : ∀ k : Nat, getNode F 0 k = getNode B 0 k)
    (hstep : ∀ b j : Nat, 1 ≤ b → b < B.length → j < (B.getD b []).length →
      sameStatic (getNode F b j) (getNode B b j) ∧
      ∃ k, k < (B.getD (getNode B b j).start []).length ∧
        (getNode F b j).prev = some ((getNode B b j).start, k)) :
    ∀ b : Nat, b < F.length → ∀ j : Nat, j < (F.getD b []).length →
      ∀ (acc : List BNode) (fuel : Nat), totalUpTo F b + 1 ≤ fuel →
      ∃ tail : List BNode,
        backwardAux LatticeMode.Normal F fuel (some (b, j)) acc = acc ++ tail ∧
        tail.head? = some (getNode F b j) ∧
        tail.getLast? = some bosNode ∧
        (tail.reverse.map BNode.surface).flatten =
          chunksBytes (cs.take (min b cs.length)) := by
  obtain ⟨hBlen, hB0, hBeos, hBnodes⟩ := hinv
  intro b
  induction b using Nat.strong_induction_on with
  | _ b ih =>
    intro hbF j hj acc fuel hfuel
    obtain ⟨f, rfl⟩ : ∃ f, fuel = f + 1 := ⟨fuel - 1, by omega⟩
    simp only [backwardAux]
    rw [if_pos (Or.inl (by decide : LatticeMode.Normal ≠ LatticeMode.Extended))]
    by_cases hb0 : b = 0
    · subst hb0
      have hjlen : (F.getD 0 []).length = 1 := by
        rw [hblen 0, hB0]
        rfl
      have hj0 : j = 0 := by omega
      subst hj0
      have hnd : getNode F 0 0 = bosNode := by
        rw [hbos 0]
        unfold getNode
        rw [hB0]
        rfl
      rw [hnd]
      rw [show bosNode.prev = none from rfl, backwardAux_none]
      refine ⟨[bosNode], rfl, rfl, ?_, ?_⟩
      · rfl
      · simp [bosNode, chunksBytes]
    · have hb1 : 1 ≤ b := by omega
      have hbB : b < B.length := by rw [hBlen]; omega
      have hjB : j < (B.getD b []).length := by rw [← hblen]; exact hj
      have hfacts : (b ≤ cs.length ∧ (getNode B b j).start < b ∧
          B.getD (getNode B b j).start [] ≠ [] ∧
          (getNode B b j).surface =
            chunksBytes ((cs.drop (getNode B b j).start).take (b - (getNode B b j).start))) ∨
          (b = cs.length + 1 ∧ getNode B b j = eosNode cs) := by
        by_cases hble : b ≤ cs.length
        · left
          have hmem : getNode B b j ∈ B.getD b [] := getD_mem_of_lt _ j default hjB
          obtain ⟨_, hst, hsne, hsurf⟩ := hBnodes b hb1 hble (getNode B b j) hmem
          exact ⟨hble, hst, hsne, hsurf⟩
        · right
          have hbe : b = cs.length + 1 := by rw [hFlen] at hbF; omega
          refine ⟨hbe, ?_⟩
          unfold getNode
          rw [hbe, hBeos]
          have hj1 : j < 1 := by
            have h2 := hjB
            rw [hbe, hBeos] at h2
            simpa using h2
          rw [show j = 0 by omega]
          rfl
      have hsb : (getNode B b j).start < b := by
        rcases hfacts with ⟨_, h, _⟩ | ⟨hbe, he⟩
        · exact h
        · rw [he, hbe]
          show cs.length < cs.length + 1
          omega
      have hsne : B.getD (getNode B b j).start [] ≠ [] := by
        rcases hfacts with ⟨_, _, h, _⟩ | ⟨hbe, he⟩
        · exact h
        · rw [he]
          exact hlast
      have hsle : (getNode B b j).start ≤ cs.length := by
        rcases hfacts with ⟨hble, h, _⟩ | ⟨hbe, he⟩
        · omega
        · rw [he]
          exact le_refl cs.length
      obtain ⟨hss, k, hk, hprev⟩ := hstep b j hb1 hbB hjB
      have hsF : (getNode B b j).start < F.length := by
        rw [hFlen]
        omega
      have hkF : k < (F.getD (getNode B b j).start []).length := by
        rw [hblen]
        exact hk
      have hfuel2 : totalUpTo F (getNode B b j).start + 1 ≤ f := by
        have h3 := totalUpTo_lt F hsb hbF
        omega
      obtain ⟨tail2, heq2, hhead2, hlast2, hflat2⟩ :=
        ih (getNode B b j).start hsb hsF k hkF (acc ++ [getNode F b j]) f hfuel2
      rw [hprev, heq2]
      refine ⟨getNode F b j :: tail2, by rw [List.append_assoc]; rfl, rfl, ?_, ?_⟩
      · obtain ⟨x, t2, rfl⟩ : ∃ x t2, tail2 = x :: t2 := by
          cases tail2 with
          | nil => exact absurd hhead2 (by simp)
          | cons x t2 => exact ⟨x, t2, rfl⟩
        rw [List.getLast?_cons_cons]
        exact hlast2
      · rw [List.reverse_cons, List.map_append, List.flatten_append, hflat2]
        have hsurfF : (getNode F b j).surface = (getNode B b j).surface :=
          hss.2.2.2.2.2.2.2
        have hmin : min (getNode B b j).start cs.length = (getNode B b j).start := by
          omega
        rw [hmin]
        simp only [List.map_cons, List.map_nil, List.flatten_cons, List.flatten_nil,
          List.append_nil]
        rw [hsurfF]
        rcases hfacts with ⟨hble, _, _, hsurf⟩ | ⟨hbe, he⟩
        · rw [hsurf, chunks_take_extend cs (le_of_lt hsb),
            show min b cs.length = b by omega]
        · rw [he, hbe]
          show chunksBytes (cs.take cs.length) ++ (eosNode cs).surface =
            chunksBytes (cs.take (min (cs.length + 1) cs.length))
          rw [show (eosNode cs).surface = [] from rfl, List.append_nil,
            show min (cs.length + 1) cs.length = cs.length by omega]

/-- Claim C7: for every valid UTF-8 input (a serialization of well-formed
character chunks) analysed in Normal mode with the system dictionary only —
`analyze_impl` passes no user dictionary to `build` — and a well-formed
dictionary (every common-prefix hit spans a whole number of characters of the
remaining input, per-category unknown duplicate counts are non-negative),
concatenating the surfaces of the output tokens of
`build` → `forward` → `backward` in order yields the input byte-for-byte:
over the whole output list (BOS and EOS carry empty surfaces), and with the
BOS and EOS entries dropped. -/
theorem kagome_c7_surface_concat (d : DictCore) (cs : List UcharC)
    (hok : ∀ u ∈ cs, UcharOK u)
    (hsys : ∀ suffix : List UcharC, ∀ h ∈ d.sysSearch (chunksBytes suffix),
      ∃ m, 1 ≤ m ∧ m ≤ suffix.length ∧ h.2 = (chunksBytes (suffix.take m)).length)
    (hdup : ∀ c : Nat, 0 ≤ d.unkDup c) :
    ((backward LatticeMode.Normal (forward d LatticeMode.Normal
        (build d none (chunksBytes cs)))).map BNode.surface).flatten = chunksBytes cs ∧
    ((((backward LatticeMode.Normal (forward d LatticeMode.Normal
        (build d none (chunksBytes cs)))).drop 1).dropLast).map BNode.surface).flatten =
      chunksBytes cs := by
  obtain ⟨hinv, hlastB⟩ := build_inv d hok hsys hdup
  set B := build d none (chunksBytes cs) with hBdef
  set F := forward d LatticeMode.Normal B with hFdef
  obtain ⟨hBlen, hB0, hBeos, hBnodes⟩ := hinv
  have hFlen : F.length = cs.length + 2 := by
    rw [hFdef, forward_length, hBlen]
  have hblen : ∀ b : Nat, (F.getD b []).length = (B.getD b []).length := by
    intro b
    rw [hFdef]
    exact forward_bucketLen d _ B b
  have hbos : ∀ k : Nat, getNode F 0 k = getNode B 0 k := by
    intro k
    rw [hFdef]
    exact forward_bucket0 d _ B k
  have hBeoslen : (B.getD (cs.length + 1) []).length = 1 := by
    rw [hBeos]
    rfl
  have hnodefacts : ∀ b j : Nat, 1 ≤ b → b < B.length → j < (B.getD b []).length →
      (getNode B b j).start < b ∧ B.getD (getNode B b j).start [] ≠ [] := by
    intro b j hb1 hbB hj
    by_cases hble : b ≤ cs.length
    · have hmem : getNode B b j ∈ B.getD b [] := getD_mem_of_lt _ j default hj
      obtain ⟨_, hst, hsne, _⟩ := hBnodes b hb1 hble _ hmem
      exact ⟨hst, hsne⟩
    · have hbe : b = cs.length + 1 := by rw [hBlen] at hbB; omega
      have hnd : getNode B b j = eosNode cs := by
        unfold getNode
        rw [hbe, hBeos]
        have hj1 : j < 1 := by
          have h2 := hj
          rw [hbe, hBeos] at h2
          simpa using h2
        rw [show j = 0 by omega]
        rfl
      rw [hnd, hbe]
      refine ⟨?_, hlastB⟩
      show cs.length < cs.length + 1
      omega
  have hstep : ∀ b j : Nat, 1 ≤ b → b < B.length → j < (B.getD b []).length →
      sameStatic (getNode F b j) (getNode B b j) ∧
      ∃ k, k < (B.getD (getNode B b j).start []).length ∧
        (getNode F b j).prev = some ((getNode B b j).start, k) := by
    intro b j hb1 hbB hj
    obtain ⟨hst, hsne⟩ := hnodefacts b j hb1 hbB hj
    rw [hFdef]
    exact forward_keep_prev d _ B b j hb1 hbB hj hst hsne
  have hFeoslen : (F.getD (cs.length + 1) []).length = 1 := by
    rw [hblen, hBeoslen]
  obtain ⟨tail, heqw, hheadw, hlastw, hflatw⟩ :=
    backward_walk cs F B hFlen hblen ⟨hBlen, hB0, hBeos, hBnodes⟩ hlastB hbos hstep
      (cs.length + 1) (by omega) 0 (by omega) [] (totalNodes F + 1)
      (by rw [totalUpTo_full F (by omega)])
  rw [show min (cs.length + 1) cs.length = cs.length by omega, List.take_length] at hflatw
  have hout : backward LatticeMode.Normal F = tail.reverse := by
    unfold backward
    have hg1 : F.length ≠ 0 := by omega
    have hg2 : F.getD (F.length - 1) [] ≠ [] := by
      rw [show F.length - 1 = cs.length + 1 by omega]
      intro hc
      rw [hc] at hFeoslen
      simp at hFeoslen
    rw [if_neg (by push_neg; exact ⟨hg1, hg2⟩)]
    rw [show F.length - 1 = cs.length + 1 by omega, heqw, List.nil_append]
  have hBeosnode : getNode B (cs.length + 1) 0 = eosNode cs := by
    unfold getNode
    rw [hBeos]
    rfl
  have hxs : (getNode F (cs.length + 1) 0).surface = [] := by
    have hsx := (hstep (cs.length + 1) 0 (by omega) (by omega) (by omega)).1
    have h8 : (getNode F (cs.length + 1) 0).surface =
        (getNode B (cs.length + 1) 0).surface := hsx.2.2.2.2.2.2.2
    rw [h8, hBeosnode]
    rfl
  constructor
  · rw [hout]
    exact hflatw
  · rw [hout]
    cases tail with
    | nil => exact absurd hheadw (by simp)
    | cons x0 t2 =>
      have hx0 : x0 = getNode F (cs.length + 1) 0 := by
        have h2 := hheadw
        rw [List.head?_cons] at h2
        exact Option.some.inj h2
      have hx0s : x0.surface = [] := by rw [hx0]; exact hxs
      cases t2 with
      | nil =>
        have hcse : chunksBytes cs = [] := by
          rw [← hflatw]
          simp [hx0s]
        rw [hcse]
        simp
      | cons y t3 =>
        have ht2ne : (y :: t3 : List BNode) ≠ [] := by simp
        have hlast3 : (y :: t3).getLast? = some bosNode := by
          rw [← List.getLast?_cons_cons]
          exact hlastw
        have hgl : (y :: t3).getLast ht2ne = bosNode := by
          have h3 := List.getLast?_eq_getLast (y :: t3) ht2ne
          rw [hlast3] at h3
          exact (Option.some.inj h3).symm
        have hsplit : (y :: t3 : List BNode) = (y :: t3).dropLast ++ [bosNode] := by
          conv_lhs => rw [← List.dropLast_append_getLast ht2ne]
          rw [hgl]
        rw [hsplit, ← hflatw, hsplit]
        have hbs : bosNode.surface = [] := rfl
        simp only [List.reverse_cons, List.reverse_append, List.reverse_nil,
          List.nil_append, List.singleton_append, List.map_append, List.map_cons,
          List.map_nil, List.flatten_append, List.flatten_cons, List.flatten_nil,
          List.append_nil, hx0s, hbs, List.cons_append]
        rw [show (1 : Nat) = 0 + 1 from rfl, List.drop_succ_cons, List.drop_zero,
          List.dropLast_concat]
        rw [List.dropLast_concat]

theorem u8Next_ascii {b : Nat} (hb : b < 0x80) (r : List Nat) :
    u8Next (b :: r) = some (some b, 1) := by
  simp only [u8Next]
  rw [if_pos hb]

theorem kagome_c7_witness :
    ((backward LatticeMode.Normal (forward trivDict LatticeMode.Normal
        (build trivDict none (chunksBytes [⟨[0x61], 0x61⟩])))).map BNode.surface).flatten =
      chunksBytes [⟨[0x61], 0x61⟩] ∧
    ((((backward LatticeMode.Normal (forward trivDict LatticeMode.Normal
        (build trivDict none (chunksBytes [⟨[0x61], 0x61⟩])))).drop 1).dropLast).map
        BNode.surface).flatten = chunksBytes [⟨[0x61], 0x61⟩] :=
  kagome_c7_surface_concat trivDict [⟨[0x61], 0x61⟩]
    (by
      intro u hu
      rw [List.mem_singleton] at hu
      subst hu
      intro r
      exact u8Next_ascii (by decide) r)
    (by
      intro suffix h hm
      exact absurd hm (List.not_mem_nil h))
    (fun c => le_refl 0)

end Kagome
